import Mathlib

/-!
# SimpleVector / ArrayPtr: a shallow embedding

Source files: `simple-vector/array_ptr.h`, `simple-vector/simple_vector.h`.

Memory model.  A raw pointer `Type*` that owns an array is embedded as
`Option (List α)`: `none` is `nullptr`, `some b` is a heap block of `b.length`
slots whose contents are `b`.  Iterators (`Type*` into the block) are slot
indices.  Every access outside the block, and every access through `nullptr`,
is undefined behaviour in C++; the embedding makes it explicit by returning
`none`.  Allocation is assumed to succeed, and `size_t` is embedded as `Nat`:
a block of `2^63` or more elements cannot be allocated, so `capacity_ * 2`
never wraps on a vector that exists.

Element type.  The template parameter `Type` is a Lean type `α` together with
an `ElemType α` record: the value of `Type()`, the value found in a slot right
after `new Type[n]` (for scalar types this is not `Type()`), and what remains
in an object after it has been moved from.
-/

/-- What the embedding needs to know about the element type `Type`. -/
structure ElemType (α : Type) where
  /-- The value of the expression `Type()`. -/
  dflt : α
  /-- The content of a slot right after `new Type[n]`. -/
  fresh : α
  /-- The content left in an object after `std::move` out of it. -/
  moved : α → α

/-- The element type `int`: `int()` is `0`, moving is copying, and a freshly
allocated slot holds an arbitrary value `junk`. -/
def intElem (junk : Int) : ElemType Int :=
  { dflt := 0, fresh := junk, moved := fun x => x }

/-- A raw owning pointer: `none` is `nullptr`, `some b` a block with contents `b`. -/
abbrev RawPtr (α : Type) := Option (List α)

namespace RawPtr

variable {α : Type}

/-- Number of slots in the block pointed to (`0` for `nullptr`). -/
def len (p : RawPtr α) : Nat :=
  match p with
  | none => 0
  | some b => b.length

/-- The read `p[i]`; `none` is undefined behaviour. -/
def read (p : RawPtr α) (i : Nat) : Option α :=
  match p with
  | none => none
  | some b => b[i]?

/-- The write `p[i] = x`; `none` is undefined behaviour. -/
def write (p : RawPtr α) (i : Nat) (x : α) : Option (RawPtr α) :=
  match p with
  | none => none
  | some b => if i < b.length then some (some (b.set i x)) else none

/-- The expression `new Type[n]`. -/
def alloc (E : ElemType α) (n : Nat) : RawPtr α :=
  some (List.replicate n E.fresh)

end RawPtr

/-- The loop of `std::move(first, last, d_first)` between two different blocks,
run for `n = last - first` iterations: `*d = std::move(*first); ++d; ++first`.
Returns the source and destination blocks afterwards. -/
def std_move_loop {α : Type} (E : ElemType α) :
    Nat → RawPtr α → Nat → RawPtr α → Nat → Option (RawPtr α × RawPtr α)
  | 0, src, _, dst, _ => some (src, dst)
  | n + 1, src, first, dst, d =>
    match src.read first with
    | none => none
    | some x =>
      match dst.write d x with
      | none => none
      | some dst1 =>
        match src.write first (E.moved x) with
        | none => none
        | some src1 => std_move_loop E n src1 (first + 1) dst1 (d + 1)

/-- The call `std::move(first, last, d_first)` with `[first, last)` in block `src`
and `d_first` in a different block `dst`.  With `last` before `first` the loop
`first != last` runs off the end of the block. -/
def std_move {α : Type} (E : ElemType α) (src : RawPtr α) (first last : Nat)
    (dst : RawPtr α) (d : Nat) : Option (RawPtr α × RawPtr α) :=
  if first ≤ last then std_move_loop E (last - first) src first dst d else none

/-- The loop of `std::copy(first, last, d_first)` reading from a sequence `src`. -/
def std_copy_loop {α : Type} :
    Nat → RawPtr α → Nat → RawPtr α → Nat → Option (RawPtr α)
  | 0, _, _, dst, _ => some dst
  | n + 1, src, first, dst, d =>
    match src.read first with
    | none => none
    | some x =>
      match dst.write d x with
      | none => none
      | some dst1 => std_copy_loop n src (first + 1) dst1 (d + 1)

/-- The call `std::copy(first, last, d_first)`. -/
def std_copy {α : Type} (src : RawPtr α) (first last : Nat)
    (dst : RawPtr α) (d : Nat) : Option (RawPtr α) :=
  if first ≤ last then std_copy_loop (last - first) src first dst d else none

/-- The loop of `std::move(first, last, d_first)` when all three iterators point
into the same block `p` (the use in `Erase`). -/
def std_move_within_loop {α : Type} (E : ElemType α) :
    Nat → RawPtr α → Nat → Nat → Option (RawPtr α)
  | 0, p, _, _ => some p
  | n + 1, p, first, d =>
    match p.read first with
    | none => none
    | some x =>
      match p.write d x with
      | none => none
      | some p1 =>
        match p1.write first (E.moved x) with
        | none => none
        | some p2 => std_move_within_loop E n p2 (first + 1) (d + 1)

/-- The call `std::move(first, last, d_first)` inside one block. -/
def std_move_within {α : Type} (E : ElemType α) (p : RawPtr α) (first last d : Nat) :
    Option (RawPtr α) :=
  if first ≤ last then std_move_within_loop E (last - first) p first d else none

/-- The call `std::fill(first, last, value)`. -/
def std_fill_loop {α : Type} : Nat → RawPtr α → Nat → α → Option (RawPtr α)
  | 0, p, _, _ => some p
  | n + 1, p, first, x =>
    match p.write first x with
    | none => none
    | some p1 => std_fill_loop n p1 (first + 1) x

/-- The loop of `std::equal(first1, last1, first2)`: stops at the first mismatch. -/
def std_equal_loop {α : Type} [DecidableEq α] :
    Nat → RawPtr α → Nat → RawPtr α → Nat → Option Bool
  | 0, _, _, _, _ => some true
  | n + 1, p1, i1, p2, i2 =>
    match p1.read i1 with
    | none => none
    | some a =>
      match p2.read i2 with
      | none => none
      | some b => if a = b then std_equal_loop n p1 (i1 + 1) p2 (i2 + 1) else some false

/-- The call `std::fill(first, last, value)`; also the loop
`while (it != last) { *it = value; ++it; }` of `Resize`. -/
def std_fill {α : Type} (p : RawPtr α) (first last : Nat) (x : α) : Option (RawPtr α) :=
  if first ≤ last then std_fill_loop (last - first) p first x else none

/-- The call `std::equal(first1, last1, first2)`. -/
def std_equal {α : Type} [DecidableEq α] (p1 : RawPtr α) (first1 last1 : Nat)
    (p2 : RawPtr α) (first2 : Nat) : Option Bool :=
  if first1 ≤ last1 then std_equal_loop (last1 - first1) p1 first1 p2 first2 else none

/-- The loop of `std::lexicographical_compare`, with `n1 = last1 - first1` and
`n2 = last2 - first2` elements left in the two ranges. -/
def std_lexicographical_compare_loop {α : Type} [LT α] [DecidableRel (fun (a b : α) => a < b)] :
    Nat → Nat → RawPtr α → Nat → RawPtr α → Nat → Option Bool
  | 0, n2, _, _, _, _ => some (decide (n2 ≠ 0))
  | _ + 1, 0, _, _, _, _ => some false
  | n1 + 1, n2 + 1, p1, i1, p2, i2 =>
    match p1.read i1 with
    | none => none
    | some a =>
      match p2.read i2 with
      | none => none
      | some b =>
        if a < b then some true
        else if b < a then some false
        else std_lexicographical_compare_loop n1 n2 p1 (i1 + 1) p2 (i2 + 1)

/-- The call `std::lexicographical_compare(first1, last1, first2, last2)`. -/
def std_lexicographical_compare {α : Type} [LT α] [DecidableRel (fun (a b : α) => a < b)]
    (p1 : RawPtr α) (first1 last1 : Nat) (p2 : RawPtr α) (first2 last2 : Nat) : Option Bool :=
  if first1 ≤ last1 ∧ first2 ≤ last2 then
    std_lexicographical_compare_loop (last1 - first1) (last2 - first2) p1 first1 p2 first2
  else none

/-! ## `array_ptr.h` -/

/-- The class `ArrayPtr<Type>`: one raw pointer. -/
structure ArrayPtr (α : Type) where
  raw_ptr_ : RawPtr α := none
  deriving DecidableEq

namespace ArrayPtr

variable {α : Type}

/-- The constructor `ArrayPtr(size_t size)`: allocates only when `size` is not zero. -/
def ofSize (E : ElemType α) (size : Nat) : ArrayPtr α :=
  if size ≠ 0 then { raw_ptr_ := RawPtr.alloc E size } else { raw_ptr_ := none }

/-- The constructor `ArrayPtr(Type* raw_ptr)`. -/
def ofRaw (raw_ptr : RawPtr α) : ArrayPtr α :=
  { raw_ptr_ := raw_ptr }

/-- The method `Release`: returns the pointer and the emptied object. -/
def Release (p : ArrayPtr α) : RawPtr α × ArrayPtr α :=
  (p.raw_ptr_, { raw_ptr_ := none })

/-- The method `Get`. -/
def Get (p : ArrayPtr α) : RawPtr α :=
  p.raw_ptr_

/-- The conversion `operator bool`. -/
def toBool (p : ArrayPtr α) : Bool :=
  if p.raw_ptr_.isSome then true else false

/-- The method `swap`: returns the new `*this` and the new `other`. -/
def swap (p other : ArrayPtr α) : ArrayPtr α × ArrayPtr α :=
  ({ raw_ptr_ := other.raw_ptr_ }, { raw_ptr_ := p.raw_ptr_ })

end ArrayPtr

/-! ## `simple_vector.h` -/

/-- The class `ReserveProxyObj`. -/
structure ReserveProxyObj where
  capacity_ : Nat

/-- The free function `Reserve(size_t capacity_to_reserve)`. -/
def Reserve (capacity_to_reserve : Nat) : ReserveProxyObj :=
  { capacity_ := capacity_to_reserve }

/-- The class `SimpleVector<Type>`: its three data members. -/
structure SimpleVector (α : Type) where
  items_ : ArrayPtr α := {}
  size_ : Nat := 0
  capacity_ : Nat := 0
  deriving DecidableEq

/-- Result of `At`: a value, the exception `std::out_of_range`, or undefined behaviour. -/
inductive AtResult (α : Type) where
  | value (x : α)
  | out_of_range
  | undefined
  deriving DecidableEq

namespace SimpleVector

variable {α : Type}

/-- The default constructor `SimpleVector()`. -/
def empty : SimpleVector α := {}

/-- The methods `begin`, `cbegin` (`items_.Get()`), as a position in the block. -/
def cbegin (_v : SimpleVector α) : Nat := 0

/-- The methods `end`, `cend` (`items_.Get() + size_`), as a position in the block. -/
def cend (v : SimpleVector α) : Nat := v.size_

def GetSize (v : SimpleVector α) : Nat := v.size_

def GetCapacity (v : SimpleVector α) : Nat := v.capacity_

def IsEmpty (v : SimpleVector α) : Bool := decide (v.size_ = 0)

/-- The method `MakeNewCopyVector(begin, end)`: `first`, `last` are positions in
the block `src`. -/
def MakeNewCopyVector (E : ElemType α) (v : SimpleVector α)
    (src : RawPtr α) (first last : Nat) : Option (SimpleVector α) :=
  let tmp := ArrayPtr.ofSize E (last - first)
  match std_copy src first last tmp.Get 0 with
  | none => none
  | some blk => some { v with items_ := (v.items_.swap { raw_ptr_ := blk }).1 }

/-- The method `MakeNewMoveVector(new_value, begin, end)`: `first`, `last` are
positions in the block `src`.  Returns the vector and the block `src` after the
elements were moved out of it. -/
def MakeNewMoveVector (E : ElemType α) (v : SimpleVector α) (new_value : Nat)
    (src : RawPtr α) (first last : Nat) : Option (SimpleVector α × RawPtr α) :=
  let tmp := ArrayPtr.ofSize E new_value
  match std_move E src first last tmp.Get 0 with
  | none => none
  | some (src1, blk) => some ({ v with items_ := (v.items_.swap { raw_ptr_ := blk }).1 }, src1)


/-- The constructor `SimpleVector(size_t size, const Type& value)`. -/
def ofSizeValue (E : ElemType α) (size : Nat) (value : α) : Option (SimpleVector α) :=
  let v : SimpleVector α := { items_ := ArrayPtr.ofSize E size, size_ := size, capacity_ := size }
  match std_fill v.items_.Get v.cbegin v.cend value with
  | none => none
  | some blk => some { v with items_ := { raw_ptr_ := blk } }

/-- The constructor `SimpleVector(size_t size)`. -/
def ofSize (E : ElemType α) (size : Nat) : Option (SimpleVector α) :=
  ofSizeValue E size E.dflt

/-- The constructor `SimpleVector(std::initializer_list<Type> init)`. -/
def ofInitList (E : ElemType α) (init : List α) : Option (SimpleVector α) :=
  MakeNewCopyVector E { size_ := init.length, capacity_ := init.length } (some init) 0 init.length

/-- The copy constructor `SimpleVector(const SimpleVector& other)`; `other` is a
`const` reference and has no state afterwards other than the one it had. -/
def copy (E : ElemType α) (other : SimpleVector α) : Option (SimpleVector α) :=
  MakeNewCopyVector E { size_ := other.size_, capacity_ := other.size_ }
    other.items_.Get other.cbegin other.cend

/-- The move constructor `SimpleVector(SimpleVector&& other)`: returns the new
vector and `other` afterwards. -/
def move (E : ElemType α) (other : SimpleVector α) :
    Option (SimpleVector α × SimpleVector α) :=
  match MakeNewMoveVector E {} other.size_ other.items_.Get other.cbegin other.cend with
  | none => none
  | some (v, src1) =>
    some ({ v with size_ := other.size_, capacity_ := other.capacity_ },
          { items_ := { raw_ptr_ := src1 }, size_ := 0, capacity_ := 0 })

/-- The constructor `SimpleVector(ReserveProxyObj a)`. -/
def ofReserve (E : ElemType α) (a : ReserveProxyObj) : SimpleVector α :=
  let v : SimpleVector α := {}
  let tmp := ArrayPtr.ofSize E a.capacity_
  { v with items_ := (v.items_.swap tmp).1, capacity_ := a.capacity_ }

/-- The method `swap`: returns the new `*this` and the new `other`. -/
def swap (v other : SimpleVector α) : SimpleVector α × SimpleVector α :=
  ({ items_ := (v.items_.swap other.items_).1, size_ := other.size_, capacity_ := other.capacity_ },
   { items_ := (v.items_.swap other.items_).2, size_ := v.size_, capacity_ := v.capacity_ })

/-- Copy assignment `operator=(const SimpleVector& rhs)` with `&rhs != this`:
the new value of `*this`. -/
def copyAssign (E : ElemType α) (v rhs : SimpleVector α) : Option (SimpleVector α) :=
  match copy E rhs with
  | none => none
  | some tmp => some (v.swap tmp).1

/-- Move assignment `operator=(SimpleVector&& rhs)` with `&rhs != this`: returns
the new `*this` and `rhs` afterwards. -/
def moveAssign (v rhs : SimpleVector α) : SimpleVector α × SimpleVector α :=
  let items := v.items_.swap rhs.items_
  ({ items_ := items.1, size_ := rhs.size_, capacity_ := rhs.capacity_ },
   { items_ := items.2.Release.2, size_ := 0, capacity_ := 0 })

/-- The growth step shared by `PushBack` and `Insert`:
`if (size_ == capacity_) { ... MakeNewMoveVector(new_capacity, begin(), end()); ... }`. -/
def growIfFull (E : ElemType α) (v : SimpleVector α) : Option (SimpleVector α) :=
  if v.size_ = v.capacity_ then
    let new_capacity := if v.capacity_ ≠ 0 then v.capacity_ * 2 else 1
    match MakeNewMoveVector E v new_capacity v.items_.Get v.cbegin v.cend with
    | none => none
    | some (v1, _) => some { v1 with capacity_ := new_capacity }
  else some v

/-- The method `PushBack(const Type& item)`; the overload taking `Type&&`
performs the same steps on the vector. -/
def PushBack (E : ElemType α) (v : SimpleVector α) (item : α) : Option (SimpleVector α) :=
  match growIfFull E v with
  | none => none
  | some v1 =>
    match v1.items_.raw_ptr_.write v1.size_ item with
    | none => none
    | some blk => some { v1 with items_ := { raw_ptr_ := blk }, size_ := v1.size_ + 1 }

/-- The method `Insert(ConstIterator pos, const Type& value)` with
`index = pos - cbegin()`: returns the vector and the position returned. -/
def Insert (E : ElemType α) (v : SimpleVector α) (index : Nat) (value : α) :
    Option (SimpleVector α × Nat) :=
  match growIfFull E v with
  | none => none
  | some v1 =>
    match v1.items_.raw_ptr_.write index value with
    | none => none
    | some blk =>
      some ({ v1 with items_ := { raw_ptr_ := blk }, size_ := v1.size_ + 1 }, v1.cbegin + index)

/-- The method `PopBack`; `none` when `assert(!IsEmpty())` fails. -/
def PopBack (v : SimpleVector α) : Option (SimpleVector α) :=
  if v.IsEmpty then none else some { v with size_ := v.size_ - 1 }

/-- The method `Erase(ConstIterator pos)` with `index = pos - cbegin()`: returns
the vector and the position returned; `none` when `assert(!IsEmpty())` fails. -/
def Erase (E : ElemType α) (v : SimpleVector α) (index : Nat) :
    Option (SimpleVector α × Nat) :=
  if v.IsEmpty then none
  else
    match std_move_within E v.items_.Get (v.cbegin + index + 1) v.cend (v.cbegin + index) with
    | none => none
    | some blk =>
      some ({ v with items_ := { raw_ptr_ := blk }, size_ := v.size_ - 1 }, v.cbegin + index)

/-- The method `Reserve(size_t new_capacity)`. -/
def Reserve (E : ElemType α) (v : SimpleVector α) (new_capacity : Nat) :
    Option (SimpleVector α) :=
  if new_capacity > v.capacity_ then
    match MakeNewMoveVector E v new_capacity v.items_.Get v.cbegin v.cend with
    | none => none
    | some (v1, _) => some { v1 with capacity_ := new_capacity }
  else some v

/-- The unchecked access `operator[](size_t index)`; `none` is undefined behaviour. -/
def op_index (v : SimpleVector α) (i : Nat) : Option α :=
  v.items_.raw_ptr_.read i

/-- The method `At(size_t index)`: both overloads have this body, and the `const`
one cannot modify the vector, so the result is a function of the vector alone. -/
def At (v : SimpleVector α) (index : Nat) : AtResult α :=
  if index ≥ v.size_ then AtResult.out_of_range
  else
    match v.items_.raw_ptr_.read index with
    | none => AtResult.undefined
    | some x => AtResult.value x

/-- The method `Clear`. -/
def Clear (v : SimpleVector α) : SimpleVector α :=
  { v with size_ := 0 }

/-- The method `Resize(size_t new_size)`. -/
def Resize (E : ElemType α) (v : SimpleVector α) (new_size : Nat) : Option (SimpleVector α) :=
  if new_size ≤ v.size_ then some { v with size_ := new_size }
  else if new_size ≤ v.capacity_ then
    match std_fill v.items_.Get v.cend (v.cbegin + new_size) E.dflt with
    | none => none
    | some blk => some { v with items_ := { raw_ptr_ := blk }, size_ := new_size }
  else
    let new_capacity := max new_size (v.capacity_ * 2)
    match MakeNewMoveVector E v new_capacity v.items_.Get v.cbegin v.cend with
    | none => none
    | some (v1, _) =>
      match std_fill v1.items_.Get v1.cend (v1.cbegin + new_size) E.dflt with
      | none => none
      | some blk =>
        some { v1 with items_ := { raw_ptr_ := blk }, size_ := new_size, capacity_ := new_capacity }

/-- The free function `operator==`; `none` is undefined behaviour. -/
def op_eq [DecidableEq α] (lhs rhs : SimpleVector α) : Option Bool :=
  std_equal lhs.items_.Get lhs.cbegin lhs.cend rhs.items_.Get rhs.cbegin

/-- The free function `operator!=`. -/
def op_ne [DecidableEq α] (lhs rhs : SimpleVector α) : Option Bool :=
  (op_eq lhs rhs).map (fun b => !b)

/-- The free function `operator<`. -/
def op_lt [LT α] [DecidableRel (fun (a b : α) => a < b)] (lhs rhs : SimpleVector α) :
    Option Bool :=
  std_lexicographical_compare lhs.items_.Get lhs.cbegin lhs.cend rhs.items_.Get rhs.cbegin rhs.cend

/-- The free function `operator<=`. -/
def op_le [LT α] [DecidableRel (fun (a b : α) => a < b)] (lhs rhs : SimpleVector α) :
    Option Bool :=
  (op_lt rhs lhs).map (fun b => !b)

/-- The free function `operator>`. -/
def op_gt [LT α] [DecidableRel (fun (a b : α) => a < b)] (lhs rhs : SimpleVector α) :
    Option Bool :=
  op_lt rhs lhs

/-- The free function `operator>=`. -/
def op_ge [LT α] [DecidableRel (fun (a b : α) => a < b)] (lhs rhs : SimpleVector α) :
    Option Bool :=
  (op_lt lhs rhs).map (fun b => !b)

/-- The live elements: the contents of the slots `[0, size_)`. -/
def live (v : SimpleVector α) : List α :=
  match v.items_.raw_ptr_ with
  | none => []
  | some b => b.take v.size_

/-- The data-model invariant: `size_ <= capacity_`, the block has exactly
`capacity_` slots, and the pointer is null exactly when `capacity_` is zero. -/
def Inv (v : SimpleVector α) : Prop :=
  v.size_ ≤ v.capacity_ ∧ v.items_.raw_ptr_.len = v.capacity_ ∧
    (v.items_.raw_ptr_.isNone = true ↔ v.capacity_ = 0)

instance (v : SimpleVector α) : Decidable (Inv v) := by
  unfold Inv; infer_instance

/-- The slots `[0, size_)` lie inside the owned block: the part of `Inv` that
reading the live elements needs. -/
def SlotsLive (v : SimpleVector α) : Prop :=
  v.size_ ≤ v.items_.raw_ptr_.len

instance (v : SimpleVector α) : Decidable (SlotsLive v) := by
  unfold SlotsLive; infer_instance

/-- The vector `[10, 20, 30]` as the initializer-list constructor builds it. -/
def vec_10_20_30 : SimpleVector Int :=
  { items_ := { raw_ptr_ := some [10, 20, 30] }, size_ := 3, capacity_ := 3 }

/-- The vector `SimpleVector<int>{1, 2}`. -/
def vec_1_2 : SimpleVector Int :=
  { items_ := { raw_ptr_ := some [1, 2] }, size_ := 2, capacity_ := 2 }

/-- The vector `SimpleVector<int>{1, 2, 3}`. -/
def vec_1_2_3 : SimpleVector Int :=
  { items_ := { raw_ptr_ := some [1, 2, 3] }, size_ := 3, capacity_ := 3 }

/-- The vector `[1, 2]` with capacity 4: slots 2 and 3 hold the stale values 3 and 9. -/
def vec_1_2_slack : SimpleVector Int :=
  { items_ := { raw_ptr_ := some [1, 2, 3, 9] }, size_ := 2, capacity_ := 4 }

/-- The vector `[1, 2, 3]` with capacity 4 that three `PushBack` calls on an empty
`SimpleVector<int>` produce when a freshly allocated slot holds 7. -/
def vec_1_2_3_cap4 : SimpleVector Int :=
  { items_ := { raw_ptr_ := some [1, 2, 3, 7] }, size_ := 3, capacity_ := 4 }

/-- Lexicographic "less" on sequences as the specification words it: the first
position where the two sequences differ decides, and a proper prefix is smaller than
the longer sequence. -/
def spec_lexicographic_less [DecidableEq α] [LT α] [DecidableRel (fun (a b : α) => a < b)] :
    List α → List α → Bool
  | [], [] => false
  | [], _ :: _ => true
  | _ :: _, [] => false
  | a :: as, b :: bs => if a = b then spec_lexicographic_less as bs else decide (a < b)

/-- The least power of two that is at least `n`, as the specification words it:
`c` is a power of two, `n <= c`, and no smaller power of two is at least `n`. -/
def IsLeastPowerOfTwoGE (n c : Nat) : Prop :=
  ∃ k, c = 2 ^ k ∧ n ≤ c ∧ ∀ j, n ≤ 2 ^ j → c ≤ 2 ^ j

/-- The program `SimpleVector<Type> v; v.PushBack(x1); ...; v.PushBack(xN);`. -/
def pushAll (E : ElemType α) (xs : List α) : Option (SimpleVector α) :=
  xs.foldlM (fun v x => PushBack E v x) empty

end SimpleVector

/-- The program `SimpleVector<Type> v(Reserve(n)); v.PushBack(x1); ...; v.PushBack(xK);`. -/
def reserveThenPush {α : Type} (E : ElemType α) (n : Nat) (xs : List α) :
    Option (SimpleVector α) :=
  xs.foldlM (fun v x => SimpleVector.PushBack E v x) (SimpleVector.ofReserve E (Reserve n))

/-! ## Lemmas on the memory model -/

namespace RawPtr

variable {α : Type}

theorem read_eq_none_of_le (p : RawPtr α) (i : Nat) (h : p.len ≤ i) : p.read i = none := by
  cases p with
  | none => rfl
  | some b => simpa [read, len] using h

theorem read_isSome_of_lt (p : RawPtr α) (i : Nat) (h : i < p.len) :
    ∃ x, p.read i = some x := by
  cases p with
  | none => simp [len] at h
  | some b =>
    simp only [len] at h
    exact ⟨b[i], by simp [read, List.getElem?_eq_getElem h]⟩

theorem write_of_lt (p : RawPtr α) (i : Nat) (x : α) (h : i < p.len) :
    ∃ q, p.write i x = some q ∧ q.len = p.len ∧ q.isNone = false ∧
      ∀ j, q.read j = if j = i then some x else p.read j := by
  cases p with
  | none => simp [len] at h
  | some b =>
    simp only [len] at h
    refine ⟨some (b.set i x), by simp [write, h], by simp [len], rfl, ?_⟩
    intro j
    simp only [read, List.getElem?_set]
    by_cases hj : j = i
    · subst hj; simp [h]
    · have : ¬ i = j := fun e => hj e.symm
      simp [hj, this]

theorem lt_len_of_write (p q : RawPtr α) (i : Nat) (x : α) (h : p.write i x = some q) :
    i < p.len := by
  cases p with
  | none => simp [write] at h
  | some b =>
    by_cases hi : i < b.length
    · simpa [len] using hi
    · simp [write, hi] at h

theorem len_pos_iff (p : RawPtr α) (h : 0 < p.len) : p.isNone = false := by
  cases p with
  | none => simp [len] at h
  | some b => rfl

end RawPtr

theorem std_move_loop_spec {α : Type} (E : ElemType α) :
    ∀ (n : Nat) (src : RawPtr α) (first : Nat) (dst : RawPtr α) (d : Nat),
      first + n ≤ src.len → d + n ≤ dst.len →
      ∃ src1 dst1, std_move_loop E n src first dst d = some (src1, dst1) ∧
        src1.len = src.len ∧ dst1.len = dst.len ∧
        src1.isNone = src.isNone ∧ dst1.isNone = dst.isNone ∧
        (∀ j, dst1.read j = if d ≤ j ∧ j < d + n then src.read (first + (j - d)) else dst.read j) ∧
        (∀ j, src1.read j =
          if first ≤ j ∧ j < first + n then (src.read j).map E.moved else src.read j) := by
  intro n
  induction n with
  | zero =>
    intro src first dst d _ _
    refine ⟨src, dst, rfl, rfl, rfl, rfl, rfl, ?_, ?_⟩
    · intro j
      have : ¬ (d ≤ j ∧ j < d + 0) := by omega
      rw [if_neg this]
    · intro j
      have : ¬ (first ≤ j ∧ j < first + 0) := by omega
      rw [if_neg this]
  | succ n ih =>
    intro src first dst d hs hd
    obtain ⟨x, hx⟩ := RawPtr.read_isSome_of_lt src first (by omega)
    obtain ⟨dst0, hw, hlen0, hnone0, hread0⟩ := RawPtr.write_of_lt dst d x (by omega)
    obtain ⟨src0, hw2, hlen2, hnone2, hread2⟩ :=
      RawPtr.write_of_lt src first (E.moved x) (by omega)
    obtain ⟨src1, dst1, hloop, hl1, hl2, hn1, hn2, hr1, hr2⟩ :=
      ih src0 (first + 1) dst0 (d + 1) (by omega) (by omega)
    refine ⟨src1, dst1, ?_, by omega, by omega, ?_, ?_, ?_, ?_⟩
    · simp only [std_move_loop, hx, hw, hw2, hloop]
    · rw [hn1, hnone2]
      exact (RawPtr.len_pos_iff src (by omega)).symm
    · rw [hn2, hnone0]
      exact (RawPtr.len_pos_iff dst (by omega)).symm
    · intro j
      rw [hr1 j, hread0 j]
      by_cases h1 : d + 1 ≤ j ∧ j < d + 1 + n
      · have h2 : d ≤ j ∧ j < d + (n + 1) := by omega
        have h3 : first + 1 + (j - (d + 1)) = first + (j - d) := by omega
        have h4 : ¬ (first + (j - d) = first) := by omega
        simp only [h1, h2, and_self, if_true, h3, hread2, h4, if_false]
      · by_cases h5 : j = d
        · subst h5
          simp [h1, hx]
        · have h2 : ¬ (d ≤ j ∧ j < d + (n + 1)) := by omega
          simp only [h1, h2, h5, if_false]
    · intro j
      rw [hr2 j, hread2 j]
      by_cases h1 : first + 1 ≤ j ∧ j < first + 1 + n
      · have h2 : first ≤ j ∧ j < first + (n + 1) := by omega
        have h4 : ¬ (j = first) := by omega
        simp only [h1, h2, and_self, if_true, h4, if_false]
      · by_cases h5 : j = first
        · subst h5
          simp [h1, hx]
        · have h2 : ¬ (first ≤ j ∧ j < first + (n + 1)) := by omega
          simp only [h1, h2, h5, if_false]

theorem std_copy_loop_spec {α : Type} :
    ∀ (n : Nat) (src : RawPtr α) (first : Nat) (dst : RawPtr α) (d : Nat),
      first + n ≤ src.len → d + n ≤ dst.len →
      ∃ dst1, std_copy_loop n src first dst d = some dst1 ∧
        dst1.len = dst.len ∧ dst1.isNone = dst.isNone ∧
        (∀ j, dst1.read j =
          if d ≤ j ∧ j < d + n then src.read (first + (j - d)) else dst.read j) := by
  intro n
  induction n with
  | zero =>
    intro src first dst d _ _
    refine ⟨dst, rfl, rfl, rfl, ?_⟩
    intro j
    have : ¬ (d ≤ j ∧ j < d + 0) := by omega
    rw [if_neg this]
  | succ n ih =>
    intro src first dst d hs hd
    obtain ⟨x, hx⟩ := RawPtr.read_isSome_of_lt src first (by omega)
    obtain ⟨dst0, hw, hlen0, hnone0, hread0⟩ := RawPtr.write_of_lt dst d x (by omega)
    obtain ⟨dst1, hloop, hl2, hn2, hr1⟩ :=
      ih src (first + 1) dst0 (d + 1) (by omega) (by omega)
    refine ⟨dst1, ?_, by omega, ?_, ?_⟩
    · simp only [std_copy_loop, hx, hw, hloop]
    · rw [hn2, hnone0]
      exact (RawPtr.len_pos_iff dst (by omega)).symm
    · intro j
      rw [hr1 j, hread0 j]
      by_cases h1 : d + 1 ≤ j ∧ j < d + 1 + n
      · have h2 : d ≤ j ∧ j < d + (n + 1) := by omega
        have h3 : first + 1 + (j - (d + 1)) = first + (j - d) := by omega
        simp only [h1, h2, and_self, if_true, h3]
      · by_cases h5 : j = d
        · subst h5
          simp [h1, hx]
        · have h2 : ¬ (d ≤ j ∧ j < d + (n + 1)) := by omega
          simp only [h1, h2, h5, if_false]

theorem std_fill_loop_spec {α : Type} (x : α) :
    ∀ (n : Nat) (p : RawPtr α) (first : Nat), first + n ≤ p.len →
      ∃ q, std_fill_loop n p first x = some q ∧ q.len = p.len ∧ q.isNone = p.isNone ∧
        (∀ j, q.read j = if first ≤ j ∧ j < first + n then some x else p.read j) := by
  intro n
  induction n with
  | zero =>
    intro p first _
    refine ⟨p, rfl, rfl, rfl, ?_⟩
    intro j
    have : ¬ (first ≤ j ∧ j < first + 0) := by omega
    rw [if_neg this]
  | succ n ih =>
    intro p first hp
    obtain ⟨p0, hw, hlen0, hnone0, hread0⟩ := RawPtr.write_of_lt p first x (by omega)
    obtain ⟨q, hloop, hl, hn, hr⟩ := ih p0 (first + 1) (by omega)
    refine ⟨q, ?_, by omega, ?_, ?_⟩
    · simp only [std_fill_loop, hw, hloop]
    · rw [hn, hnone0]
      exact (RawPtr.len_pos_iff p (by omega)).symm
    · intro j
      rw [hr j, hread0 j]
      by_cases h1 : first + 1 ≤ j ∧ j < first + 1 + n
      · have h2 : first ≤ j ∧ j < first + (n + 1) := by omega
        simp only [h1, h2, and_self, if_true]
      · by_cases h5 : j = first
        · subst h5
          simp [h1]
        · have h2 : ¬ (first ≤ j ∧ j < first + (n + 1)) := by omega
          simp only [h1, h2, h5, if_false]

theorem std_move_within_loop_spec {α : Type} (E : ElemType α) :
    ∀ (n : Nat) (p : RawPtr α) (d : Nat), d + 1 + n ≤ p.len →
      ∃ q, std_move_within_loop E n p (d + 1) d = some q ∧ q.len = p.len ∧
        q.isNone = p.isNone ∧
        (∀ j, q.read j =
          if d ≤ j ∧ j < d + n then p.read (j + 1)
          else if j = d + n ∧ 0 < n then (p.read j).map E.moved
          else p.read j) := by
  intro n
  induction n with
  | zero =>
    intro p d _
    refine ⟨p, rfl, rfl, rfl, ?_⟩
    intro j
    have h1 : ¬ (d ≤ j ∧ j < d + 0) := by omega
    have h2 : ¬ (j = d + 0 ∧ 0 < 0) := by omega
    rw [if_neg h1, if_neg h2]
  | succ n ih =>
    intro p d hp
    obtain ⟨x, hx⟩ := RawPtr.read_isSome_of_lt p (d + 1) (by omega)
    obtain ⟨p1, hw1, hlen1, hnone1, hread1⟩ := RawPtr.write_of_lt p d x (by omega)
    obtain ⟨p2, hw2, hlen2, hnone2, hread2⟩ :=
      RawPtr.write_of_lt p1 (d + 1) (E.moved x) (by omega)
    obtain ⟨q, hloop, hl, hn, hr⟩ := ih p2 (d + 1) (by omega)
    refine ⟨q, ?_, by omega, ?_, ?_⟩
    · simp only [std_move_within_loop, hx, hw1, hw2, hloop]
    · rw [hn, hnone2]
      exact (RawPtr.len_pos_iff p (by omega)).symm
    · intro j
      rw [hr j]
      by_cases h1 : d + 1 ≤ j ∧ j < d + 1 + n
      · have h2 : d ≤ j ∧ j < d + (n + 1) := by omega
        have h3 : ¬ (j + 1 = d + 1) := by omega
        have h4 : ¬ (j + 1 = d) := by omega
        simp only [h1, h2, and_self, if_true, hread2, hread1, h3, h4, if_false]
      · rw [if_neg h1]
        by_cases h6 : j = d + 1 + n ∧ 0 < n
        · have h2 : ¬ (d ≤ j ∧ j < d + (n + 1)) := by omega
          have h3 : j = d + (n + 1) ∧ 0 < n + 1 := by omega
          have h4 : ¬ (j = d + 1) := by omega
          have h5 : ¬ (j = d) := by omega
          rw [if_pos h6, if_neg h2, if_pos h3, hread2 j, hread1 j, if_neg h4, if_neg h5]
        · rw [if_neg h6, hread2 j, hread1 j]
          by_cases h7 : j = d + 1
          · have h2 : ¬ (d ≤ j ∧ j < d + (n + 1)) := by omega
            have h3 : j = d + (n + 1) ∧ 0 < n + 1 := by omega
            rw [if_pos h7, if_neg h2, if_pos h3, h7, hx]
            rfl
          · rw [if_neg h7]
            by_cases h8 : j = d
            · have h2 : d ≤ j ∧ j < d + (n + 1) := by omega
              rw [if_pos h8, if_pos h2, h8, hx]
            · have h2 : ¬ (d ≤ j ∧ j < d + (n + 1)) := by omega
              have h3 : ¬ (j = d + (n + 1) ∧ 0 < n + 1) := by omega
              rw [if_neg h8, if_neg h2, if_neg h3]

theorem std_equal_loop_spec {α : Type} [DecidableEq α] :
    ∀ (n : Nat) (p1 : RawPtr α) (i1 : Nat) (p2 : RawPtr α) (i2 : Nat),
      i1 + n ≤ p1.len → i2 + n ≤ p2.len →
      std_equal_loop n p1 i1 p2 i2 =
        some (decide (∀ k, k < n → p1.read (i1 + k) = p2.read (i2 + k))) := by
  intro n
  induction n with
  | zero =>
    intro p1 i1 p2 i2 _ _
    simp [std_equal_loop]
  | succ n ih =>
    intro p1 i1 p2 i2 h1 h2
    obtain ⟨a, ha⟩ := RawPtr.read_isSome_of_lt p1 i1 (by omega)
    obtain ⟨b, hb⟩ := RawPtr.read_isSome_of_lt p2 i2 (by omega)
    simp only [std_equal_loop, ha, hb]
    by_cases hab : a = b
    · rw [if_pos hab, ih p1 (i1 + 1) p2 (i2 + 1) (by omega) (by omega)]
      congr 1
      rw [decide_eq_decide]
      constructor
      · intro h k hk
        cases k with
        | zero => simp [ha, hb, hab]
        | succ k =>
          have := h k (by omega)
          rwa [show i1 + 1 + k = i1 + (k + 1) by omega,
            show i2 + 1 + k = i2 + (k + 1) by omega] at this
      · intro h k hk
        have := h (k + 1) (by omega)
        rwa [show i1 + (k + 1) = i1 + 1 + k  by omega,
          show i2 + (k + 1) = i2 + 1 + k by omega] at this
    · rw [if_neg hab]
      congr 1
      symm
      rw [decide_eq_false_iff_not]
      intro h
      have := h 0 (by omega)
      simp [ha, hb, hab] at this

namespace ArrayPtr

variable {α : Type}

theorem ofSize_len (E : ElemType α) (n : Nat) : (ofSize E n).raw_ptr_.len = n := by
  by_cases h : n = 0
  · subst h; rfl
  · simp [ofSize, h, RawPtr.alloc, RawPtr.len]

theorem ofSize_isNone (E : ElemType α) (n : Nat) :
    (ofSize E n).raw_ptr_.isNone = true ↔ n = 0 := by
  by_cases h : n = 0
  · subst h; simp [ofSize]
  · simp [ofSize, h, RawPtr.alloc]

theorem ofSize_read (E : ElemType α) (n j : Nat) :
    (ofSize E n).raw_ptr_.read j = if j < n then some E.fresh else none := by
  by_cases h : n = 0
  · subst h; simp [ofSize, RawPtr.read]
  · simp [ofSize, h, RawPtr.alloc, RawPtr.read, List.getElem?_replicate]

end ArrayPtr

namespace SimpleVector

variable {α : Type}

theorem Inv.slotsLive {v : SimpleVector α} (h : Inv v) : SlotsLive v := by
  unfold SlotsLive
  rw [h.2.1]
  exact h.1

theorem live_getElem? (v : SimpleVector α) (j : Nat) :
    (live v)[j]? = if j < v.size_ then v.items_.raw_ptr_.read j else none := by
  unfold live
  cases h : v.items_.raw_ptr_ with
  | none => simp [RawPtr.read]
  | some b => simp [RawPtr.read, List.getElem?_take]

theorem live_length (v : SimpleVector α) (h : SlotsLive v) : (live v).length = v.size_ := by
  unfold SlotsLive at h
  unfold live
  cases hp : v.items_.raw_ptr_ with
  | none =>
    rw [hp] at h
    simp only [RawPtr.len] at h
    simp only [List.length_nil]
    omega
  | some b =>
    rw [hp] at h
    simp only [RawPtr.len] at h
    simp only [List.length_take]
    omega

theorem MakeNewMoveVector_spec (E : ElemType α) (v0 : SimpleVector α) (new_value : Nat)
    (src : RawPtr α) (last : Nat) (h1 : last ≤ src.len) (h2 : last ≤ new_value) :
    ∃ blk src1, MakeNewMoveVector E v0 new_value src 0 last =
        some ({ v0 with items_ := { raw_ptr_ := blk } }, src1) ∧
      blk.len = new_value ∧ (blk.isNone = true ↔ new_value = 0) ∧
      (∀ j, blk.read j =
        if j < last then src.read j else if j < new_value then some E.fresh else none) ∧
      src1.len = src.len ∧ src1.isNone = src.isNone ∧
      (∀ j, src1.read j = if j < last then (src.read j).map E.moved else src.read j) := by
  obtain ⟨src1, dst1, hloop, hl1, hl2, hn1, hn2, hr1, hr2⟩ :=
    std_move_loop_spec E last src 0 (ArrayPtr.ofSize E new_value).raw_ptr_ 0
      (by omega) (by rw [ArrayPtr.ofSize_len]; omega)
  refine ⟨dst1, src1, ?_, ?_, ?_, ?_, hl1, hn1, ?_⟩
  · simp [MakeNewMoveVector, std_move, ArrayPtr.Get, ArrayPtr.swap, hloop]
  · rw [hl2, ArrayPtr.ofSize_len]
  · rw [hn2]; exact ArrayPtr.ofSize_isNone E new_value
  · intro j
    rw [hr1 j, ArrayPtr.ofSize_read]
    simp
  · intro j
    rw [hr2 j]
    simp

theorem MakeNewCopyVector_spec (E : ElemType α) (v0 : SimpleVector α)
    (src : RawPtr α) (last : Nat) (h1 : last ≤ src.len) :
    ∃ blk, MakeNewCopyVector E v0 src 0 last = some { v0 with items_ := { raw_ptr_ := blk } } ∧
      blk.len = last ∧ (blk.isNone = true ↔ last = 0) ∧
      (∀ j, blk.read j = if j < last then src.read j else none) := by
  obtain ⟨dst1, hloop, hl2, hn2, hr1⟩ :=
    std_copy_loop_spec last src 0 (ArrayPtr.ofSize E last).raw_ptr_ 0
      (by omega) (by rw [ArrayPtr.ofSize_len]; omega)
  refine ⟨dst1, ?_, ?_, ?_, ?_⟩
  · simp [MakeNewCopyVector, std_copy, ArrayPtr.Get, ArrayPtr.swap, hloop]
  · rw [hl2, ArrayPtr.ofSize_len]
  · rw [hn2]; exact ArrayPtr.ofSize_isNone E last
  · intro j
    rw [hr1 j, ArrayPtr.ofSize_read]
    by_cases h : j < last
    · simp [h]
    · simp [h]

theorem growIfFull_spec (E : ElemType α) (v : SimpleVector α) (h : SlotsLive v) :
    ∃ v1, growIfFull E v = some v1 ∧ v1.size_ = v.size_ ∧
      v1.capacity_ = (if v.size_ = v.capacity_ then
        (if v.capacity_ ≠ 0 then v.capacity_ * 2 else 1) else v.capacity_) ∧
      (∀ j, j < v.size_ → v1.items_.raw_ptr_.read j = v.items_.raw_ptr_.read j) ∧
      (v.size_ = v.capacity_ → v1.items_.raw_ptr_.len = v1.capacity_ ∧
        v1.items_.raw_ptr_.isNone = false ∧ v1.size_ < v1.capacity_) ∧
      (v.size_ ≠ v.capacity_ → v1 = v) := by
  by_cases hfull : v.size_ = v.capacity_
  · have hle : v.size_ ≤ (if v.capacity_ ≠ 0 then v.capacity_ * 2 else 1) := by
      split <;> omega
    have hlt : v.size_ < (if v.capacity_ ≠ 0 then v.capacity_ * 2 else 1) := by
      split <;> omega
    obtain ⟨blk, src1, hmk, hlen, hnone, hread, -, -, -⟩ :=
      MakeNewMoveVector_spec E v (if v.capacity_ ≠ 0 then v.capacity_ * 2 else 1)
        v.items_.raw_ptr_ v.size_ h hle
    refine ⟨{ v with items_ := { raw_ptr_ := blk },
                     capacity_ := (if v.capacity_ ≠ 0 then v.capacity_ * 2 else 1) },
      ?_, rfl, ?_, ?_, ?_, ?_⟩
    · simp only [growIfFull, hfull, if_true, ArrayPtr.Get, cbegin, cend] at hmk ⊢
      rw [hmk]
    · simp only [hfull, if_true]
    · intro j hj
      simp only [hread j, hj, if_true]
    · intro _
      refine ⟨hlen, ?_, hlt⟩
      apply RawPtr.len_pos_iff
      rw [hlen]
      omega
    · intro hne
      exact absurd hfull hne
  · refine ⟨v, by simp [growIfFull, hfull], rfl, by simp [hfull], fun _ _ => rfl, ?_, fun _ => rfl⟩
    intro hc
    exact absurd hc hfull

theorem PushBack_spec (E : ElemType α) (v : SimpleVector α) (x : α) (h : Inv v) :
    ∃ v1, PushBack E v x = some v1 ∧ Inv v1 ∧ v1.size_ = v.size_ + 1 ∧
      v1.capacity_ = (if v.size_ = v.capacity_ then
        (if v.capacity_ ≠ 0 then v.capacity_ * 2 else 1) else v.capacity_) ∧
      live v1 = live v ++ [x] := by
  obtain ⟨g, hg, hgs, hgc, hgr, hgfull, hgnot⟩ := growIfFull_spec E v h.slotsLive
  have hglen : g.items_.raw_ptr_.len = g.capacity_ ∧ g.size_ < g.capacity_ := by
    by_cases hfull : v.size_ = v.capacity_
    · exact ⟨(hgfull hfull).1, (hgfull hfull).2.2⟩
    · rw [hgnot hfull]
      exact ⟨h.2.1, lt_of_le_of_ne h.1 hfull⟩
  obtain ⟨blk, hw, hlen, hnone, hread⟩ :=
    RawPtr.write_of_lt g.items_.raw_ptr_ g.size_ x (by omega)
  refine ⟨{ g with items_ := { raw_ptr_ := blk }, size_ := g.size_ + 1 }, ?_, ?_, ?_, hgc, ?_⟩
  · simp only [PushBack, hg, hw]
  · refine ⟨?_, ?_, ?_⟩
    · show g.size_ + 1 ≤ g.capacity_
      omega
    · show blk.len = g.capacity_
      omega
    · show blk.isNone = true ↔ g.capacity_ = 0
      rw [hnone]
      constructor
      · intro hf; cases hf
      · intro hz; omega
  · show g.size_ + 1 = v.size_ + 1
    omega
  · apply List.ext_getElem?
    intro j
    have hl : (live v).length = v.size_ := live_length v h.slotsLive
    rw [live_getElem?, List.getElem?_append, hl, live_getElem?]
    show (if j < g.size_ + 1 then blk.read j else none) = _
    rw [hread j, hgs]
    by_cases hj : j < v.size_
    · have h1 : j < v.size_ + 1 := by omega
      have h2 : ¬ j = v.size_ := by omega
      rw [if_pos h1, if_neg h2, if_pos hj, if_pos hj, hgr j hj]
    · by_cases hj2 : j = v.size_
      · subst hj2
        simp
      · have h1 : ¬ j < v.size_ + 1 := by omega
        rw [if_neg h1, if_neg hj]
        have : j - v.size_ ≠ 0 := by omega
        cases hk : j - v.size_ with
        | zero => exact absurd hk this
        | succ k => rfl

theorem empty_inv : Inv (empty : SimpleVector α) := by
  refine ⟨Nat.le_refl _, rfl, ?_⟩
  simp [empty]

theorem foldlM_PushBack_spec (E : ElemType α) (xs : List α) :
    ∀ v : SimpleVector α, Inv v →
      ∃ v1, xs.foldlM (fun w x => PushBack E w x) v = some v1 ∧ Inv v1 ∧
        v1.size_ = v.size_ + xs.length ∧ live v1 = live v ++ xs := by
  induction xs with
  | nil =>
    intro v hv
    exact ⟨v, rfl, hv, rfl, by simp⟩
  | cons x xs ih =>
    intro v hv
    obtain ⟨v1, h1, hinv1, hs1, -, hl1⟩ := PushBack_spec E v x hv
    obtain ⟨v2, h2, hinv2, hs2, hl2⟩ := ih v1 hinv1
    refine ⟨v2, ?_, hinv2, ?_, ?_⟩
    · simp only [List.foldlM, h1]
      exact h2
    · rw [hs2, hs1, List.length_cons]; omega
    · rw [hl2, hl1, List.append_assoc]; rfl

theorem op_index_of_live (v : SimpleVector α) (i : Nat) (h : i < v.size_) :
    v.op_index i = (live v)[i]? := by
  rw [live_getElem?, if_pos h]
  rfl

theorem At_of_live (v : SimpleVector α) (i : Nat) (x : α) (h : i < v.size_)
    (hx : (live v)[i]? = some x) : v.At i = AtResult.value x := by
  rw [live_getElem?, if_pos h] at hx
  have : ¬ i ≥ v.size_ := by omega
  simp only [At, this, if_false, hx]

/-- C1: starting from a default-constructed vector, `PushBack(x1), ..., PushBack(xN)`
runs to completion and yields a vector with `GetSize() == N` whose element at every
index `i < N`, read by `operator[]` or by `At`, is the `i`-th pushed value. -/
theorem C1_push_back_reads_back_in_push_order (E : ElemType α) (xs : List α) :
    ∃ v, pushAll E xs = some v ∧ v.GetSize = xs.length ∧
      ∀ i (hi : i < xs.length),
        v.op_index i = some xs[i] ∧ v.At i = AtResult.value xs[i] := by
  obtain ⟨v, hv, hinv, hs, hl⟩ := foldlM_PushBack_spec E xs empty empty_inv
  have hl2 : live v = xs := by simpa [live, empty] using hl
  have hs2 : v.size_ = xs.length := by simpa [empty] using hs
  refine ⟨v, hv, hs2, ?_⟩
  intro i hi
  have hget : (live v)[i]? = some xs[i] := by
    rw [hl2]; exact List.getElem?_eq_getElem hi
  exact ⟨by rw [op_index_of_live v i (by omega), hget], At_of_live v i _ (by omega) hget⟩

theorem Erase_spec (E : ElemType α) (v : SimpleVector α) (i : Nat)
    (hlive : SlotsLive v) (hi : i < v.size_) :
    ∃ blk, Erase E v i =
        some ({ v with items_ := { raw_ptr_ := blk }, size_ := v.size_ - 1 }, i) ∧
      blk.len = v.items_.raw_ptr_.len ∧ blk.isNone = v.items_.raw_ptr_.isNone ∧
      (∀ j, blk.read j =
        if i ≤ j ∧ j < v.size_ - 1 then v.items_.raw_ptr_.read (j + 1)
        else if j = v.size_ - 1 ∧ i < v.size_ - 1 then (v.items_.raw_ptr_.read j).map E.moved
        else v.items_.raw_ptr_.read j) := by
  unfold SlotsLive at hlive
  obtain ⟨q, hloop, hlen, hnone, hread⟩ :=
    std_move_within_loop_spec E (v.size_ - (i + 1)) v.items_.raw_ptr_ i (by omega)
  have hne : ¬ v.size_ = 0 := by omega
  have hle : i + 1 ≤ v.size_ := by omega
  refine ⟨q, ?_, hlen, hnone, ?_⟩
  · simp only [Erase, IsEmpty, hne, decide_False, std_move_within, cbegin, cend, Nat.zero_add,
      hle, if_true, ArrayPtr.Get, hloop]
    simp
  · intro j
    rw [hread j]
    have e1 : (i ≤ j ∧ j < i + (v.size_ - (i + 1))) ↔ (i ≤ j ∧ j < v.size_ - 1) := by omega
    have e2 : (j = i + (v.size_ - (i + 1)) ∧ 0 < v.size_ - (i + 1)) ↔
        (j = v.size_ - 1 ∧ i < v.size_ - 1) := by omega
    simp only [e1, e2]

/-- C2: on a vector whose live slots are inside its block, `Erase(begin() + i)` with
`i < size` returns position `i`, lowers `size` by one, keeps `capacity`, keeps the
elements at indices below `i` and puts the old element `j + 1` at every index `j`
with `i <= j < size - 1`; the live elements are the old ones without the `i`-th. -/
theorem C2_erase_removes_one_and_shifts_left (E : ElemType α) (v : SimpleVector α) (i : Nat)
    (hlive : SlotsLive v) (hi : i < v.size_) :
    ∃ v1, Erase E v i = some (v1, i) ∧
      v1.GetSize = v.GetSize - 1 ∧ v1.GetCapacity = v.GetCapacity ∧
      (∀ j, j < i → v1.op_index j = v.op_index j) ∧
      (∀ j, i ≤ j → j < v.GetSize - 1 → v1.op_index j = v.op_index (j + 1)) ∧
      live v1 = (live v).eraseIdx i := by
  obtain ⟨blk, he, -, -, hread⟩ := Erase_spec E v i hlive hi
  refine ⟨_, he, rfl, rfl, ?_, ?_, ?_⟩
  · intro j hj
    show blk.read j = v.items_.raw_ptr_.read j
    have h1 : ¬ (i ≤ j ∧ j < v.size_ - 1) := by omega
    have h2 : ¬ (j = v.size_ - 1 ∧ i < v.size_ - 1) := by omega
    rw [hread j, if_neg h1, if_neg h2]
  · intro j hj1 hj2
    show blk.read j = v.items_.raw_ptr_.read (j + 1)
    have h1 : i ≤ j ∧ j < v.size_ - 1 := ⟨hj1, hj2⟩
    rw [hread j, if_pos h1]
  · apply List.ext_getElem?
    intro j
    rw [live_getElem?, List.getElem?_eraseIdx, live_getElem?, live_getElem?]
    show (if j < v.size_ - 1 then blk.read j else none) = _
    rw [hread j]
    by_cases hj : j < v.size_ - 1
    · have h2 : ¬ (j = v.size_ - 1 ∧ i < v.size_ - 1) := by omega
      have h3 : j < v.size_ := by omega
      have h4 : j + 1 < v.size_ := by omega
      rw [if_pos hj, if_pos h3, if_pos h4]
      by_cases hji : j < i
      · have h1 : ¬ (i ≤ j ∧ j < v.size_ - 1) := by omega
        rw [if_neg h1, if_neg h2, if_pos hji]
      · have h1 : i ≤ j ∧ j < v.size_ - 1 := by omega
        rw [if_pos h1, if_neg hji]
    · have h4 : ¬ j + 1 < v.size_ := by omega
      have h5 : ¬ j < i := by omega
      rw [if_neg hj, if_neg h5, if_neg h4]

/-- C2, the scenario of the specification: erasing position 1 of `[10, 20, 30]`
gives `[10, 30]` with size 2. -/
theorem C2_erase_witness :
    SlotsLive vec_10_20_30 ∧ 1 < vec_10_20_30.size_ ∧
      ∃ v1, Erase (intElem 7) vec_10_20_30 1 = some (v1, 1) ∧ v1.GetSize = 2 ∧
        v1.GetCapacity = 3 ∧ live v1 = [10, 30] := by
  obtain ⟨v1, h1, h2, h3, -, -, h6⟩ :=
    C2_erase_removes_one_and_shifts_left (intElem 7) vec_10_20_30 1 (by decide) (by decide)
  exact ⟨by decide, by decide, v1, h1, h2, h3, by rw [h6]; rfl⟩

/-- C3 (the code at the failing input): `SimpleVector<int>{1, 2} == SimpleVector<int>{1, 2, 3}`
evaluates to `true` and `!=` to `false` although the sizes 2 and 3 differ; with the
operands exchanged `std::equal` reads `rhs` one slot past its block. -/
theorem C3_op_eq_true_on_proper_prefix :
    ofInitList (intElem 7) [1, 2] = some vec_1_2 ∧
      ofInitList (intElem 7) [1, 2, 3] = some vec_1_2_3 ∧
      vec_1_2.GetSize ≠ vec_1_2_3.GetSize ∧
      op_eq vec_1_2 vec_1_2_3 = some true ∧
      op_ne vec_1_2 vec_1_2_3 = some false ∧
      op_eq vec_1_2_3 vec_1_2 = none := by
  decide

theorem op_eq_spec [DecidableEq α] (lhs rhs : SimpleVector α)
    (hl : SlotsLive lhs) (hr : SlotsLive rhs) (hs : lhs.size_ = rhs.size_) :
    op_eq lhs rhs = some (decide (live lhs = live rhs)) := by
  unfold SlotsLive at hl hr
  have h := std_equal_loop_spec lhs.size_ lhs.items_.raw_ptr_ 0 rhs.items_.raw_ptr_ 0
    (by omega) (by omega)
  simp only [op_eq, std_equal, cbegin, cend, ArrayPtr.Get, Nat.zero_le, if_true, Nat.sub_zero, h]
  congr 1
  rw [decide_eq_decide]
  constructor
  · intro hk
    apply List.ext_getElem?
    intro j
    rw [live_getElem?, live_getElem?, ← hs]
    by_cases hj : j < lhs.size_
    · have := hk j hj
      simp only [Nat.zero_add] at this
      rw [if_pos hj, if_pos hj, this]
    · rw [if_neg hj, if_neg hj]
  · intro hlive k hk
    have := congrArg (fun l => l[k]?) hlive
    simp only [live_getElem?, ← hs, hk, if_true] at this
    simpa using this

/-- C4: for two vectors of the same size (live slots inside their blocks),
`operator==` returns `true` when the elements are equal at every index below `size`
and `false` when they differ at some index below `size`; the result is a function
of the two live element sequences only, so replacing either operand by a vector with
the same live elements (other capacity, other contents beyond `size`) leaves it
unchanged. -/
theorem C4_op_eq_same_size_is_elementwise [DecidableEq α] (lhs rhs : SimpleVector α)
    (hl : SlotsLive lhs) (hr : SlotsLive rhs) (hs : lhs.GetSize = rhs.GetSize) :
    ((∀ i, i < lhs.GetSize → lhs.op_index i = rhs.op_index i) → op_eq lhs rhs = some true) ∧
    ((∃ i, i < lhs.GetSize ∧ lhs.op_index i ≠ rhs.op_index i) → op_eq lhs rhs = some false) ∧
    (∀ lhs2 rhs2 : SimpleVector α, SlotsLive lhs2 → SlotsLive rhs2 →
      live lhs2 = live lhs → live rhs2 = live rhs → op_eq lhs2 rhs2 = op_eq lhs rhs) := by
  have hs1 : lhs.size_ = rhs.size_ := hs
  have hspec := op_eq_spec lhs rhs hl hr hs
  refine ⟨?_, ?_, ?_⟩
  · intro hall
    rw [hspec]
    congr 1
    rw [decide_eq_true_iff]
    apply List.ext_getElem?
    intro j
    rw [live_getElem?, live_getElem?, ← hs1]
    by_cases hj : j < lhs.size_
    · rw [if_pos hj, if_pos hj]
      exact hall j hj
    · rw [if_neg hj, if_neg hj]
  · rintro ⟨i, hi, hne⟩
    rw [hspec]
    congr 1
    rw [decide_eq_false_iff_not]
    intro heq
    apply hne
    have hi1 : i < lhs.size_ := hi
    have hi2 : i < rhs.size_ := by omega
    have := congrArg (fun l => l[i]?) heq
    simp only [live_getElem?, hi1, hi2, if_true] at this
    exact this
  · intro lhs2 rhs2 hl2 hr2 e1 e2
    have hsz : lhs2.size_ = rhs2.size_ := by
      rw [← live_length lhs2 hl2, ← live_length rhs2 hr2, e1, e2,
        live_length lhs hl, live_length rhs hr]
      exact hs
    rw [op_eq_spec lhs2 rhs2 hl2 hr2 hsz, hspec]
    simp only [e1, e2]

/-- C4 at a concrete input: `[1, 2]` with capacity 4 and stale slots `3, 9` equals
`[1, 2]` with capacity 2. -/
theorem C4_op_eq_witness :
    SlotsLive vec_1_2_slack ∧ SlotsLive vec_1_2 ∧ vec_1_2_slack.GetSize = vec_1_2.GetSize ∧
      op_eq vec_1_2_slack vec_1_2 = some true := by
  have h := C4_op_eq_same_size_is_elementwise vec_1_2_slack vec_1_2
    (by decide) (by decide) (by decide)
  refine ⟨by decide, by decide, by decide, h.1 ?_⟩
  intro i hi
  have hi2 : i < 2 := hi
  interval_cases i <;> rfl

theorem move_spec (E : ElemType α) (src : SimpleVector α) (h : SlotsLive src) :
    ∃ blk src1, move E src =
        some ({ items_ := { raw_ptr_ := blk }, size_ := src.size_, capacity_ := src.capacity_ },
              { items_ := { raw_ptr_ := src1 }, size_ := 0, capacity_ := 0 }) ∧
      blk.len = src.size_ ∧ (blk.isNone = true ↔ src.size_ = 0) ∧
      (∀ j, blk.read j = if j < src.size_ then src.items_.raw_ptr_.read j else none) ∧
      src1.len = src.items_.raw_ptr_.len ∧ src1.isNone = src.items_.raw_ptr_.isNone := by
  obtain ⟨blk, src1, hmk, hlen, hnone, hread, hl1, hn1, -⟩ :=
    MakeNewMoveVector_spec E {} src.size_ src.items_.raw_ptr_ src.size_ h (Nat.le_refl _)
  refine ⟨blk, src1, ?_, hlen, hnone, ?_, hl1, hn1⟩
  · simp only [move, ArrayPtr.Get, cbegin, cend, hmk]
  · intro j
    rw [hread j]
    by_cases hj : j < src.size_
    · rw [if_pos hj, if_pos hj]
    · rw [if_neg hj, if_neg hj, if_neg hj]

/-- C5: move construction from `src` (live slots inside its block) yields a vector
with the size, the `capacity_` value and the live elements of `src` and leaves `src`
with size 0 and capacity 0; move assignment of `src` to any other vector `target` does
the same to `target` and `src`. -/
theorem C5_move_transfers_and_empties_source (E : ElemType α) (src : SimpleVector α)
    (h : SlotsLive src) :
    (∃ dst src1, move E src = some (dst, src1) ∧
      dst.GetSize = src.GetSize ∧ dst.GetCapacity = src.GetCapacity ∧ live dst = live src ∧
      src1.GetSize = 0 ∧ src1.GetCapacity = 0) ∧
    (∀ target : SimpleVector α,
      (moveAssign target src).1.GetSize = src.GetSize ∧
      (moveAssign target src).1.GetCapacity = src.GetCapacity ∧
      live (moveAssign target src).1 = live src ∧
      (moveAssign target src).2.GetSize = 0 ∧ (moveAssign target src).2.GetCapacity = 0) := by
  constructor
  · obtain ⟨blk, src1, hmv, -, -, hread, -, -⟩ := move_spec E src h
    refine ⟨_, _, hmv, rfl, rfl, ?_, rfl, rfl⟩
    apply List.ext_getElem?
    intro j
    rw [live_getElem?, live_getElem?]
    show (if j < src.size_ then blk.read j else none) = _
    rw [hread j]
    by_cases hj : j < src.size_
    · rw [if_pos hj, if_pos hj]
    · rw [if_neg hj, if_neg hj]
  · intro target
    exact ⟨rfl, rfl, rfl, rfl, rfl⟩

/-- C5 at a concrete input: moving from `[1, 2]` with capacity 4. -/
theorem C5_move_witness :
    SlotsLive vec_1_2_slack ∧
      (∃ dst src1, move (intElem 7) vec_1_2_slack = some (dst, src1) ∧
        dst.GetSize = 2 ∧ dst.GetCapacity = 4 ∧ live dst = [1, 2] ∧
        src1.GetSize = 0 ∧ src1.GetCapacity = 0) :=
  ⟨by decide, (C5_move_transfers_and_empties_source (intElem 7) vec_1_2_slack (by decide)).1⟩

theorem copy_spec (E : ElemType α) (other : SimpleVector α) (h : SlotsLive other) :
    ∃ blk, copy E other =
        some { items_ := { raw_ptr_ := blk }, size_ := other.size_, capacity_ := other.size_ } ∧
      blk.len = other.size_ ∧ (blk.isNone = true ↔ other.size_ = 0) ∧
      (∀ j, blk.read j = if j < other.size_ then other.items_.raw_ptr_.read j else none) := by
  obtain ⟨blk, hmk, hlen, hnone, hread⟩ :=
    MakeNewCopyVector_spec E { size_ := other.size_, capacity_ := other.size_ }
      other.items_.raw_ptr_ other.size_ h
  exact ⟨blk, by simp only [copy, ArrayPtr.Get, cbegin, cend, hmk], hlen, hnone, hread⟩

/-- C6: the copy constructor applied to `other` (live slots inside its block, any
capacity) yields a vector `c` with `size == other.size`, `capacity == other.size`, the
data-model invariant, and at every index below `size` the element of `other`; copy
assignment of `other` to any other vector `target` leaves exactly `c` in `target`.
`other` is a `const` reference: it is the same value after the call. -/
theorem C6_copy_is_tight_and_elementwise (E : ElemType α) (other : SimpleVector α)
    (h : SlotsLive other) :
    ∃ c, copy E other = some c ∧
      c.GetSize = other.GetSize ∧ c.GetCapacity = other.GetSize ∧ Inv c ∧
      (∀ i, i < other.GetSize → c.op_index i = other.op_index i) ∧
      live c = live other ∧
      (∀ target : SimpleVector α, copyAssign E target other = some c) := by
  obtain ⟨blk, hc, hlen, hnone, hread⟩ := copy_spec E other h
  refine ⟨_, hc, rfl, rfl, ⟨Nat.le_refl _, hlen, hnone⟩, ?_, ?_, ?_⟩
  · intro i hi
    show blk.read i = other.items_.raw_ptr_.read i
    have hi1 : i < other.size_ := hi
    rw [hread i, if_pos hi1]
  · apply List.ext_getElem?
    intro j
    rw [live_getElem?, live_getElem?]
    show (if j < other.size_ then blk.read j else none) = _
    rw [hread j]
    by_cases hj : j < other.size_
    · rw [if_pos hj, if_pos hj]
    · rw [if_neg hj, if_neg hj]
  · intro target
    simp only [copyAssign, hc, swap, ArrayPtr.swap]

/-- C6 at a concrete input: copying `[1, 2]` with capacity 4 gives capacity 2. -/
theorem C6_copy_witness :
    SlotsLive vec_1_2_slack ∧
      ∃ c, copy (intElem 7) vec_1_2_slack = some c ∧ c.GetSize = 2 ∧ c.GetCapacity = 2 ∧
        live c = [1, 2] := by
  obtain ⟨c, h1, h2, h3, -, -, h5, -⟩ :=
    C6_copy_is_tight_and_elementwise (intElem 7) vec_1_2_slack (by decide)
  exact ⟨by decide, c, h1, h2, h3, by rw [h5]; rfl⟩

/-- C7: `At(i)` throws `std::out_of_range` exactly when `i >= size`, whatever the
capacity; for `i < size` (live slots inside the block) it returns the element that
`operator[]` reads at `i`.  `At` only reads: the vector is the same afterwards. -/
theorem C7_at_out_of_range_iff (v : SimpleVector α) (i : Nat) (h : SlotsLive v) :
    (v.At i = AtResult.out_of_range ↔ v.GetSize ≤ i) ∧
    (i < v.GetSize → ∃ x, v.op_index i = some x ∧ v.At i = AtResult.value x) := by
  unfold SlotsLive at h
  constructor
  · constructor
    · intro hat
      by_contra hlt
      have hlt2 : ¬ i ≥ v.size_ := hlt
      obtain ⟨x, hx⟩ := RawPtr.read_isSome_of_lt v.items_.raw_ptr_ i (by omega)
      simp [At, hlt2, hx] at hat
    · intro hle
      have : i ≥ v.size_ := hle
      simp only [At, this, if_true]
  · intro hlt
    have hlt1 : i < v.size_ := hlt
    have hlt2 : ¬ i ≥ v.size_ := by omega
    obtain ⟨x, hx⟩ := RawPtr.read_isSome_of_lt v.items_.raw_ptr_ i (by omega)
    exact ⟨x, hx, by simp only [At, hlt2, if_false, hx]⟩

/-- C7 at a concrete input: on `[1, 2]` with capacity 4, `At(1)` is `2` and `At(2)`,
inside the capacity, throws. -/
theorem C7_at_witness :
    SlotsLive vec_1_2_slack ∧ vec_1_2_slack.At 2 = AtResult.out_of_range ∧
      vec_1_2_slack.At 1 = AtResult.value 2 ∧
      ∃ x, vec_1_2_slack.op_index 0 = some x ∧ vec_1_2_slack.At 0 = AtResult.value x :=
  ⟨by decide, (C7_at_out_of_range_iff vec_1_2_slack 2 (by decide)).1.2 (by decide), by decide,
    (C7_at_out_of_range_iff vec_1_2_slack 0 (by decide)).2 (by decide)⟩

theorem Resize_grow_spec (E : ElemType α) (v : SimpleVector α) (n : Nat)
    (h : Inv v) (hn : v.size_ < n) :
    ∃ blk, Resize E v n = some (SimpleVector.mk (ArrayPtr.mk blk) n
        (if n ≤ v.capacity_ then v.capacity_ else max n (v.capacity_ * 2))) ∧
      blk.len = (if n ≤ v.capacity_ then v.capacity_ else max n (v.capacity_ * 2)) ∧
      blk.isNone = false ∧
      (∀ j, j < v.size_ → blk.read j = v.items_.raw_ptr_.read j) ∧
      (∀ j, v.size_ ≤ j → j < n → blk.read j = some E.dflt) := by
  obtain ⟨hle, hlen, hnone⟩ := h
  have hns : ¬ n ≤ v.size_ := by omega
  by_cases hcap : n ≤ v.capacity_
  · obtain ⟨q, hfill, hql, hqn, hqr⟩ :=
      std_fill_loop_spec E.dflt (n - v.size_) v.items_.raw_ptr_ v.size_ (by omega)
    have hsn : v.size_ ≤ n := by omega
    refine ⟨q, ?_, ?_, ?_, ?_, ?_⟩
    · simp only [Resize, hns, hcap, if_true, if_false, std_fill, cbegin, cend, Nat.zero_add,
        ArrayPtr.Get, hsn, hfill]
    · rw [if_pos hcap]; omega
    · apply RawPtr.len_pos_iff; omega
    · intro j hj
      have : ¬ (v.size_ ≤ j ∧ j < v.size_ + (n - v.size_)) := by omega
      rw [hqr j, if_neg this]
    · intro j hj1 hj2
      have : v.size_ ≤ j ∧ j < v.size_ + (n - v.size_) := by omega
      rw [hqr j, if_pos this]
  · have hmax : n ≤ max n (v.capacity_ * 2) := Nat.le_max_left _ _
    obtain ⟨blk, src1, hmk, hbl, -, hbr, -, -, -⟩ :=
      MakeNewMoveVector_spec E v (max n (v.capacity_ * 2)) v.items_.raw_ptr_ v.size_
        (by omega) (by omega)
    obtain ⟨q, hfill, hql, hqn, hqr⟩ :=
      std_fill_loop_spec E.dflt (n - v.size_) blk v.size_ (by omega)
    have hsn : v.size_ ≤ n := by omega
    refine ⟨q, ?_, ?_, ?_, ?_, ?_⟩
    · simp only [Resize, hns, hcap, if_false, cbegin, cend, ArrayPtr.Get, hmk, std_fill,
        Nat.zero_add, hsn, if_true, hfill]
    · rw [if_neg hcap]; omega
    · apply RawPtr.len_pos_iff; omega
    · intro j hj
      have : ¬ (v.size_ ≤ j ∧ j < v.size_ + (n - v.size_)) := by omega
      rw [hqr j, if_neg this, hbr j, if_pos hj]
    · intro j hj1 hj2
      have : v.size_ ≤ j ∧ j < v.size_ + (n - v.size_) := by omega
      rw [hqr j, if_pos this]

/-- C8: on a vector satisfying the data-model invariant, `Resize(n)` with `n > size`
runs to completion, sets `size` to `n`, keeps every element at an index below the old
size and makes every element at an index in `[old size, n)` equal to `Type()`, whether
or not `n` exceeds the capacity and whatever the slots beyond the old size held. -/
theorem C8_resize_grow_keeps_old_and_defaults_tail (E : ElemType α) (v : SimpleVector α)
    (n : Nat) (h : Inv v) (hn : v.GetSize < n) :
    ∃ v1, Resize E v n = some v1 ∧ v1.GetSize = n ∧
      (∀ i, i < v.GetSize → v1.op_index i = v.op_index i) ∧
      (∀ i, v.GetSize ≤ i → i < n → v1.op_index i = some E.dflt) ∧
      live v1 = live v ++ List.replicate (n - v.GetSize) E.dflt := by
  obtain ⟨blk, hr, -, -, hold, hnew⟩ := Resize_grow_spec E v n h hn
  have hn1 : v.size_ < n := hn
  refine ⟨_, hr, rfl, hold, hnew, ?_⟩
  apply List.ext_getElem?
  intro j
  rw [live_getElem?, List.getElem?_append, live_length v h.slotsLive, live_getElem?]
  show (if j < n then blk.read j else none) = _
  by_cases hj : j < v.size_
  · have hj2 : j < n := by omega
    rw [if_pos hj2, if_pos hj, if_pos hj, hold j hj]
  · rw [if_neg hj, List.getElem?_replicate]
    by_cases hj2 : j < n
    · have hj3 : j - v.size_ < n - v.GetSize := by
        show j - v.size_ < n - v.size_
        omega
      rw [if_pos hj2, if_pos hj3, hnew j (by omega) hj2]
    · have hj3 : ¬ j - v.size_ < n - v.GetSize := by
        show ¬ j - v.size_ < n - v.size_
        omega
      rw [if_neg hj2, if_neg hj3]

/-- C8 at concrete inputs: `[1, 2]` with capacity 4 and stale slots `3, 9` becomes
`[1, 2, 0, 0]` by `Resize(4)` and `[1, 2, 0, 0, 0]` by `Resize(5)`. -/
theorem C8_resize_grow_witness :
    Inv vec_1_2_slack ∧
      (∃ v1, Resize (intElem 7) vec_1_2_slack 4 = some v1 ∧ live v1 = [1, 2, 0, 0]) ∧
      (∃ v1, Resize (intElem 7) vec_1_2_slack 5 = some v1 ∧ live v1 = [1, 2, 0, 0, 0]) := by
  obtain ⟨v1, h1, -, -, -, h5⟩ :=
    C8_resize_grow_keeps_old_and_defaults_tail (intElem 7) vec_1_2_slack 4
      (by decide) (by decide)
  obtain ⟨v2, g1, -, -, -, g5⟩ :=
    C8_resize_grow_keeps_old_and_defaults_tail (intElem 7) vec_1_2_slack 5
      (by decide) (by decide)
  exact ⟨by decide, ⟨v1, h1, by rw [h5]; rfl⟩, ⟨v2, g1, by rw [g5]; rfl⟩⟩

/-- C9: `Resize(n)` with `n <= size` sets `size` to `n` and leaves the capacity and
every slot of the block, in particular the first `n` elements, unchanged. -/
theorem C9_resize_shrink_keeps_prefix_and_capacity (E : ElemType α) (v : SimpleVector α)
    (n : Nat) (hn : n ≤ v.GetSize) :
    ∃ v1, Resize E v n = some v1 ∧ v1.GetSize = n ∧ v1.GetCapacity = v.GetCapacity ∧
      (∀ i, i < n → v1.op_index i = v.op_index i) ∧
      v1.items_ = v.items_ ∧ live v1 = (live v).take n := by
  have hn1 : n ≤ v.size_ := hn
  refine ⟨{ v with size_ := n }, by simp only [Resize, hn1, if_true], rfl, rfl,
    fun _ _ => rfl, rfl, ?_⟩
  apply List.ext_getElem?
  intro j
  rw [live_getElem?, List.getElem?_take, live_getElem?]
  show (if j < n then v.items_.raw_ptr_.read j else none) = _
  by_cases hj : j < n
  · have : j < v.size_ := by omega
    rw [if_pos hj, if_pos hj, if_pos this]
  · rw [if_neg hj, if_neg hj]

/-- C9 at a concrete input: `[1, 2, 3]` resized to 1 is `[1]` with capacity 3. -/
theorem C9_resize_shrink_witness :
    1 ≤ vec_1_2_3.GetSize ∧
      ∃ v1, Resize (intElem 7) vec_1_2_3 1 = some v1 ∧ v1.GetSize = 1 ∧ v1.GetCapacity = 3 ∧
        live v1 = [1] := by
  obtain ⟨v1, h1, h2, h3, -, -, h6⟩ :=
    C9_resize_shrink_keeps_prefix_and_capacity (intElem 7) vec_1_2_3 1 (by decide)
  exact ⟨by decide, v1, h1, h2, h3, by rw [h6]; rfl⟩

/-- C10: on a vector satisfying the data-model invariant `PushBack(v)` runs to
completion; if `size == capacity` before the call the capacity afterwards is twice the
previous one when that was positive and 1 when it was 0, and if `size < capacity` the
capacity is unchanged. -/
theorem C10_push_back_capacity (E : ElemType α) (v : SimpleVector α) (x : α) (h : Inv v) :
    ∃ v1, PushBack E v x = some v1 ∧
      (v.GetSize = v.GetCapacity → 0 < v.GetCapacity → v1.GetCapacity = 2 * v.GetCapacity) ∧
      (v.GetSize = v.GetCapacity → v.GetCapacity = 0 → v1.GetCapacity = 1) ∧
      (v.GetSize < v.GetCapacity → v1.GetCapacity = v.GetCapacity) := by
  obtain ⟨v1, hp, -, -, hcap, -⟩ := PushBack_spec E v x h
  refine ⟨v1, hp, ?_, ?_, ?_⟩
  · intro hfull hpos
    have hfull1 : v.size_ = v.capacity_ := hfull
    have hpos1 : v.capacity_ ≠ 0 := by
      have : 0 < v.capacity_ := hpos
      omega
    show v1.capacity_ = 2 * v.capacity_
    rw [hcap, if_pos hfull1, if_pos hpos1]
    omega
  · intro hfull hzero
    have hfull1 : v.size_ = v.capacity_ := hfull
    have hz1 : ¬ v.capacity_ ≠ 0 := by
      have : v.capacity_ = 0 := hzero
      omega
    show v1.capacity_ = 1
    rw [hcap, if_pos hfull1, if_neg hz1]
  · intro hlt
    have hne : ¬ v.size_ = v.capacity_ := by
      have : v.size_ < v.capacity_ := hlt
      omega
    show v1.capacity_ = v.capacity_
    rw [hcap, if_neg hne]

/-- C10 at concrete inputs: a push on the empty vector gives capacity 1, on the full
`[1, 2]` capacity 4, and on `[1, 2]` with capacity 4 leaves capacity 4. -/
theorem C10_push_back_capacity_witness :
    Inv (empty : SimpleVector Int) ∧ Inv vec_1_2 ∧ Inv vec_1_2_slack ∧
      (∃ v1, PushBack (intElem 7) empty 5 = some v1 ∧ v1.GetCapacity = 1) ∧
      (∃ v1, PushBack (intElem 7) vec_1_2 5 = some v1 ∧ v1.GetCapacity = 2 * 2) ∧
      (∃ v1, PushBack (intElem 7) vec_1_2_slack 5 = some v1 ∧ v1.GetCapacity = 4) := by
  obtain ⟨a, a1, -, a3, -⟩ := C10_push_back_capacity (intElem 7) empty 5 (by decide)
  obtain ⟨b, b1, b2, -, -⟩ := C10_push_back_capacity (intElem 7) vec_1_2 5 (by decide)
  obtain ⟨c, c1, -, -, c4⟩ := C10_push_back_capacity (intElem 7) vec_1_2_slack 5 (by decide)
  exact ⟨by decide, by decide, by decide, ⟨a, a1, a3 (by decide) (by decide)⟩,
    ⟨b, b1, b2 (by decide) (by decide)⟩, ⟨c, c1, c4 (by decide)⟩⟩

theorem live_eq_of_read_eq (v w : SimpleVector α) (hs : w.size_ = v.size_)
    (hr : ∀ j, j < v.size_ → w.items_.raw_ptr_.read j = v.items_.raw_ptr_.read j) :
    live w = live v := by
  apply List.ext_getElem?
  intro j
  rw [live_getElem?, live_getElem?, hs]
  by_cases hj : j < v.size_
  · rw [if_pos hj, if_pos hj, hr j hj]
  · rw [if_neg hj, if_neg hj]

theorem Insert_spec (E : ElemType α) (v : SimpleVector α) (i : Nat) (x : α)
    (h : Inv v) (hi : i ≤ v.size_) :
    ∃ blk, Insert E v i x = some (SimpleVector.mk (ArrayPtr.mk blk) (v.size_ + 1)
        (if v.size_ = v.capacity_ then
          (if v.capacity_ ≠ 0 then v.capacity_ * 2 else 1) else v.capacity_), i) ∧
      blk.len = (if v.size_ = v.capacity_ then
          (if v.capacity_ ≠ 0 then v.capacity_ * 2 else 1) else v.capacity_) ∧
      blk.isNone = false ∧ v.size_ + 1 ≤ blk.len ∧
      blk.read i = some x ∧
      (∀ j, j < v.size_ → j ≠ i → blk.read j = v.items_.raw_ptr_.read j) := by
  obtain ⟨g, hg, hgs, hgc, hgr, hgfull, hgnot⟩ := growIfFull_spec E v h.slotsLive
  have hglen : g.items_.raw_ptr_.len = g.capacity_ ∧ g.size_ < g.capacity_ := by
    by_cases hfull : v.size_ = v.capacity_
    · exact ⟨(hgfull hfull).1, (hgfull hfull).2.2⟩
    · rw [hgnot hfull]
      exact ⟨h.2.1, lt_of_le_of_ne h.1 hfull⟩
  obtain ⟨blk, hw, hlen, hnone, hread⟩ :=
    RawPtr.write_of_lt g.items_.raw_ptr_ i x (by omega)
  refine ⟨blk, ?_, ?_, hnone, ?_, ?_, ?_⟩
  · simp only [Insert, hg, hw, cbegin, Nat.zero_add, hgs, hgc]
  · rw [hlen, hglen.1, hgc]
  · omega
  · rw [hread i, if_pos rfl]
  · intro j hj hne
    rw [hread j, if_neg hne, hgr j hj]

/-- C11: on a vector satisfying the data-model invariant, `Insert(begin() + i, v)` with
`i <= size` runs to completion and returns position `i`; the capacity follows the
`PushBack` growth policy, the size grows by one, slot `i` holds `v`, and every element
at an index `j < old size` other than `i` is the one that was there before: nothing
is shifted. -/
theorem C11_insert_overwrites_without_shift (E : ElemType α) (v : SimpleVector α) (i : Nat)
    (x : α) (h : Inv v) (hi : i ≤ v.GetSize) :
    ∃ v1, Insert E v i x = some (v1, i) ∧ v1.GetSize = v.GetSize + 1 ∧
      v1.GetCapacity = (if v.GetSize = v.GetCapacity then
        (if v.GetCapacity ≠ 0 then v.GetCapacity * 2 else 1) else v.GetCapacity) ∧
      v1.op_index i = some x ∧
      (∀ j, j < v.GetSize → j ≠ i → v1.op_index j = v.op_index j) := by
  obtain ⟨blk, hins, -, -, -, hx, hkeep⟩ := Insert_spec E v i x h hi
  exact ⟨_, hins, rfl, rfl, hx, hkeep⟩

/-- C11 at a concrete input: inserting 99 at position 1 of the full vector
`[10, 20, 30]` overwrites 20 and exposes one freshly allocated slot as the last
element. -/
theorem C11_insert_witness :
    Inv vec_10_20_30 ∧ 1 ≤ vec_10_20_30.GetSize ∧
      (∃ v1, Insert (intElem 7) vec_10_20_30 1 99 = some (v1, 1) ∧ v1.GetSize = 4 ∧
        v1.GetCapacity = 6 ∧ v1.op_index 1 = some 99 ∧ v1.op_index 0 = some 10 ∧
        v1.op_index 2 = some 30) ∧
      (Insert (intElem 7) vec_10_20_30 1 99).map (fun r => live r.1) = some [10, 99, 30, 7] := by
  obtain ⟨v1, h1, h2, h3, h4, h5⟩ :=
    C11_insert_overwrites_without_shift (intElem 7) vec_10_20_30 1 99 (by decide) (by decide)
  refine ⟨by decide, by decide, ⟨v1, h1, h2, h3, h4, ?_, ?_⟩, by decide⟩
  · rw [h5 0 (by decide) (by decide)]; rfl
  · rw [h5 2 (by decide) (by decide)]; rfl

theorem Reserve_grow_spec (E : ElemType α) (v : SimpleVector α) (n : Nat)
    (hs : SlotsLive v) (hc : v.size_ ≤ v.capacity_) (hn : v.capacity_ < n) :
    ∃ blk, Reserve E v n = some (SimpleVector.mk (ArrayPtr.mk blk) v.size_ n) ∧
      blk.len = n ∧ blk.isNone = false ∧
      (∀ j, j < v.size_ → blk.read j = v.items_.raw_ptr_.read j) := by
  obtain ⟨blk, src1, hmk, hlen, -, hread, -, -, -⟩ :=
    MakeNewMoveVector_spec E v n v.items_.raw_ptr_ v.size_ hs (by omega)
  have hgt : n > v.capacity_ := hn
  refine ⟨blk, ?_, hlen, ?_, ?_⟩
  · simp only [Reserve, hgt, if_true, ArrayPtr.Get, cbegin, cend, hmk]
  · apply RawPtr.len_pos_iff; omega
  · intro j hj
    rw [hread j, if_pos hj]

/-- C12: on a vector with `size <= capacity` whose live slots are inside its block,
`Reserve(n)` with `n > capacity` runs to completion, makes the capacity exactly `n`
and keeps the size and every live element in order; with `n <= capacity` it returns
the vector unchanged (same block, size and capacity). -/
theorem C12_reserve_exact_or_nothing (E : ElemType α) (v : SimpleVector α) (n : Nat)
    (hs : SlotsLive v) (hc : v.GetSize ≤ v.GetCapacity) :
    (v.GetCapacity < n → ∃ v1, Reserve E v n = some v1 ∧ v1.GetCapacity = n ∧
      v1.GetSize = v.GetSize ∧ live v1 = live v ∧
      (∀ i, i < v.GetSize → v1.op_index i = v.op_index i)) ∧
    (n ≤ v.GetCapacity → Reserve E v n = some v) := by
  constructor
  · intro hn
    obtain ⟨blk, hr, -, -, hread⟩ := Reserve_grow_spec E v n hs hc hn
    exact ⟨_, hr, rfl, rfl, live_eq_of_read_eq v _ rfl hread, hread⟩
  · intro hn
    have : ¬ n > v.capacity_ := by
      have : n ≤ v.capacity_ := hn
      omega
    simp only [Reserve, this, if_false]

/-- C12 at concrete inputs: `Reserve(5)` on `[1, 2]` with capacity 4 gives capacity 5
and keeps `[1, 2]`; `Reserve(3)` changes nothing. -/
theorem C12_reserve_witness :
    SlotsLive vec_1_2_slack ∧ vec_1_2_slack.GetSize ≤ vec_1_2_slack.GetCapacity ∧
      (∃ v1, Reserve (intElem 7) vec_1_2_slack 5 = some v1 ∧ v1.GetCapacity = 5 ∧
        v1.GetSize = 2 ∧ live v1 = [1, 2]) ∧
      Reserve (intElem 7) vec_1_2_slack 3 = some vec_1_2_slack := by
  have h := C12_reserve_exact_or_nothing (intElem 7) vec_1_2_slack 5 (by decide) (by decide)
  have g := C12_reserve_exact_or_nothing (intElem 7) vec_1_2_slack 3 (by decide) (by decide)
  obtain ⟨v1, h1, h2, h3, h4, -⟩ := h.1 (by decide)
  exact ⟨by decide, by decide, ⟨v1, h1, h2, h3, by rw [h4]; rfl⟩, g.2 (by decide)⟩

theorem std_lexicographical_compare_loop_spec [LinearOrder α] :
    ∀ (l1 l2 : List α) (p1 : RawPtr α) (i1 : Nat) (p2 : RawPtr α) (i2 : Nat),
      (∀ k, k < l1.length → p1.read (i1 + k) = l1[k]?) →
      (∀ k, k < l2.length → p2.read (i2 + k) = l2[k]?) →
      std_lexicographical_compare_loop l1.length l2.length p1 i1 p2 i2 =
        some (spec_lexicographic_less l1 l2) := by
  intro l1
  induction l1 with
  | nil =>
    intro l2 p1 i1 p2 i2 _ _
    cases l2 with
    | nil => simp [std_lexicographical_compare_loop, spec_lexicographic_less]
    | cons b bs => simp [std_lexicographical_compare_loop, spec_lexicographic_less]
  | cons a as ih =>
    intro l2 p1 i1 p2 i2 h1 h2
    cases l2 with
    | nil => simp [std_lexicographical_compare_loop, spec_lexicographic_less]
    | cons b bs =>
      have ha : p1.read i1 = some a := by
        have := h1 0 (by simp)
        simpa using this
      have hb : p2.read i2 = some b := by
        have := h2 0 (by simp)
        simpa using this
      have h1t : ∀ k, k < as.length → p1.read (i1 + 1 + k) = as[k]? := by
        intro k hk
        have := h1 (k + 1) (by simp; omega)
        rw [show i1 + 1 + k = i1 + (k + 1) by omega, this]
        simp
      have h2t : ∀ k, k < bs.length → p2.read (i2 + 1 + k) = bs[k]? := by
        intro k hk
        have := h2 (k + 1) (by simp; omega)
        rw [show i2 + 1 + k = i2 + (k + 1) by omega, this]
        simp
      simp only [List.length_cons, std_lexicographical_compare_loop, ha, hb,
        spec_lexicographic_less]
      by_cases hab : a < b
      · have hne : ¬ a = b := ne_of_lt hab
        simp [hab, hne]
      · by_cases hba : b < a
        · have hne : ¬ a = b := fun e => (ne_of_lt hba) e.symm
          simp [hab, hba, hne]
        · have heq : a = b := le_antisymm (not_lt.mp hba) (not_lt.mp hab)
          rw [if_neg hab, if_neg hba, if_pos heq]
          exact ih bs p1 (i1 + 1) p2 (i2 + 1) h1t h2t

theorem op_lt_spec [LinearOrder α] (lhs rhs : SimpleVector α)
    (hl : SlotsLive lhs) (hr : SlotsLive rhs) :
    op_lt lhs rhs = some (spec_lexicographic_less (live lhs) (live rhs)) := by
  have h := std_lexicographical_compare_loop_spec (live lhs) (live rhs)
    lhs.items_.raw_ptr_ 0 rhs.items_.raw_ptr_ 0
    (by
      intro k hk
      rw [live_length lhs hl] at hk
      rw [live_getElem?, if_pos hk, Nat.zero_add])
    (by
      intro k hk
      rw [live_length rhs hr] at hk
      rw [live_getElem?, if_pos hk, Nat.zero_add])
  rw [live_length lhs hl, live_length rhs hr] at h
  simp only [op_lt, std_lexicographical_compare, cbegin, cend, ArrayPtr.Get, Nat.zero_le,
    and_self, if_true, Nat.sub_zero, h]

/-- C13: for two vectors whose live slots are inside their blocks, over a linearly
ordered element type, `operator<` returns the lexicographic comparison of the two live
element sequences (first differing element decides, a proper prefix is smaller;
capacities and slots beyond `size` play no part), and `>`, `<=`, `>=` are `rhs < lhs`,
`!(rhs < lhs)` and `!(lhs < rhs)`. -/
theorem C13_op_lt_is_lexicographic [LinearOrder α] (lhs rhs : SimpleVector α)
    (hl : SlotsLive lhs) (hr : SlotsLive rhs) :
    op_lt lhs rhs = some (spec_lexicographic_less (live lhs) (live rhs)) ∧
    op_gt lhs rhs = some (spec_lexicographic_less (live rhs) (live lhs)) ∧
    op_le lhs rhs = some (!(spec_lexicographic_less (live rhs) (live lhs))) ∧
    op_ge lhs rhs = some (!(spec_lexicographic_less (live lhs) (live rhs))) ∧
    op_gt lhs rhs = op_lt rhs lhs ∧
    op_le lhs rhs = (op_lt rhs lhs).map (fun b => !b) ∧
    op_ge lhs rhs = (op_lt lhs rhs).map (fun b => !b) := by
  have h1 := op_lt_spec lhs rhs hl hr
  have h2 := op_lt_spec rhs lhs hr hl
  refine ⟨h1, ?_, ?_, ?_, rfl, rfl, rfl⟩
  · simp only [op_gt, h2]
  · simp only [op_le, h2, Option.map_some']
  · simp only [op_ge, h1, Option.map_some']

/-- C13 at concrete inputs: `[1, 2]` with capacity 4 and stale slots is smaller than
`[1, 2, 3]` (proper prefix), and `[1, 2, 3]` is not smaller than it. -/
theorem C13_op_lt_witness :
    SlotsLive vec_1_2_slack ∧ SlotsLive vec_1_2_3 ∧
      op_lt vec_1_2_slack vec_1_2_3 = some true ∧
      op_gt vec_1_2_slack vec_1_2_3 = some false ∧
      op_le vec_1_2_slack vec_1_2_3 = some true ∧
      op_ge vec_1_2_slack vec_1_2_3 = some false := by
  obtain ⟨h1, h2, h3, h4, -, -, -⟩ :=
    C13_op_lt_is_lexicographic vec_1_2_slack vec_1_2_3 (by decide) (by decide)
  refine ⟨by decide, by decide, ?_, ?_, ?_, ?_⟩
  · rw [h1]; decide
  · rw [h2]; decide
  · rw [h3]; decide
  · rw [h4]; decide

/-- C14: on a non-empty vector `PopBack()` lowers `size` by one and leaves the
capacity and the whole block unchanged: the elements below the new size are the old
ones and the excluded slot still holds the popped value. -/
theorem C14_pop_back_only_lowers_size (v : SimpleVector α) (h : 0 < v.GetSize) :
    ∃ v1, PopBack v = some v1 ∧ v1.GetSize = v.GetSize - 1 ∧
      v1.GetCapacity = v.GetCapacity ∧ v1.items_ = v.items_ ∧
      (∀ i, i < v.GetSize - 1 → v1.op_index i = v.op_index i) ∧
      v1.op_index (v.GetSize - 1) = v.op_index (v.GetSize - 1) ∧
      live v1 = (live v).take (v.GetSize - 1) := by
  have hne : ¬ v.size_ = 0 := by
    have : 0 < v.size_ := h
    omega
  refine ⟨{ v with size_ := v.size_ - 1 }, ?_, rfl, rfl, rfl, fun _ _ => rfl, rfl, ?_⟩
  · simp [PopBack, IsEmpty, hne]
  · apply List.ext_getElem?
    intro j
    rw [live_getElem?, List.getElem?_take, live_getElem?]
    show (if j < v.size_ - 1 then v.items_.raw_ptr_.read j else none) =
      if j < v.size_ - 1 then (if j < v.size_ then v.items_.raw_ptr_.read j else none) else none
    by_cases hj : j < v.size_ - 1
    · have : j < v.size_ := by omega
      rw [if_pos hj, if_pos hj, if_pos this]
    · rw [if_neg hj, if_neg hj]

/-- C14, the scenario of the specification: `[1, 2, 3]` with capacity 4 becomes
`[1, 2]` with capacity 4, and slot 2 still holds 3. -/
theorem C14_pop_back_witness :
    0 < vec_1_2_3_cap4.GetSize ∧
      ∃ v1, PopBack vec_1_2_3_cap4 = some v1 ∧ v1.GetSize = 2 ∧ v1.GetCapacity = 4 ∧
        live v1 = [1, 2] ∧ v1.op_index 2 = some 3 := by
  obtain ⟨v1, h1, h2, h3, -, -, h6, h7⟩ :=
    C14_pop_back_only_lowers_size vec_1_2_3_cap4 (by decide)
  exact ⟨by decide, v1, h1, h2, h3, by rw [h7]; rfl, h6⟩

end SimpleVector

/-- C15: `Release()` returns the pointer that `Get()` returned before the call and
leaves the `ArrayPtr` empty: afterwards `Get()` is null, the conversion to `bool` is
`false`, and a second `Release()` returns null. -/
theorem C15_release_returns_block_and_empties {α : Type} (p : ArrayPtr α) :
    p.Release.1 = p.Get ∧ p.Release.2.Get = none ∧ p.Release.2.toBool = false ∧
      p.Release.2.Release.1 = none ∧ p.Release.2.Release.2.Get = none :=
  ⟨rfl, rfl, rfl, rfl, rfl⟩

namespace SimpleVector

variable {α : Type}

/-- C16 (the code at the failing input): three `PushBack` calls give `[1, 2, 3]` with
capacity 4, which satisfies the invariant; move-constructing from it yields a
destination with `capacity_ == 4` over a block of 3 slots and a source with
`capacity_ == 0` that still owns its block of 4 slots, so neither satisfies the
invariant, and `PushBack` on the destination writes slot 3 outside its block. -/
theorem C16_move_constructor_breaks_invariant :
    pushAll (intElem 7) [1, 2, 3] = some vec_1_2_3_cap4 ∧ Inv vec_1_2_3_cap4 ∧
      move (intElem 7) vec_1_2_3_cap4 =
        some ({ items_ := { raw_ptr_ := some [1, 2, 3] }, size_ := 3, capacity_ := 4 },
              { items_ := { raw_ptr_ := some [1, 2, 3, 7] }, size_ := 0, capacity_ := 0 }) ∧
      ¬ Inv ({ items_ := { raw_ptr_ := some [1, 2, 3] }, size_ := 3, capacity_ := 4 } :
        SimpleVector Int) ∧
      ¬ Inv ({ items_ := { raw_ptr_ := some [1, 2, 3, 7] }, size_ := 0, capacity_ := 0 } :
        SimpleVector Int) ∧
      PushBack (intElem 7)
        { items_ := { raw_ptr_ := some [1, 2, 3] }, size_ := 3, capacity_ := 4 } 4 = none := by
  decide

theorem growIfFull_size (E : ElemType α) (v g : SimpleVector α)
    (h : growIfFull E v = some g) : g.size_ = v.size_ := by
  unfold growIfFull at h
  by_cases hfull : v.size_ = v.capacity_
  · rw [if_pos hfull] at h
    simp only [MakeNewMoveVector] at h
    cases hm : std_move E v.items_.Get v.cbegin v.cend
        (ArrayPtr.ofSize E (if v.capacity_ ≠ 0 then v.capacity_ * 2 else 1)).Get 0 with
    | none => rw [hm] at h; cases h
    | some r =>
      rw [hm] at h
      simp only [Option.some.injEq] at h
      rw [← h]
  · rw [if_neg hfull] at h
    simp only [Option.some.injEq] at h
    rw [← h]

/-- C20: `Insert(end(), v)` and `PushBack(v)` compute the same thing on every vector:
the result of `Insert` is the vector `PushBack` yields together with the position
`old size`; on a vector satisfying the data-model invariant both run to completion. -/
theorem C20_insert_at_end_is_push_back (E : ElemType α) (v : SimpleVector α) (x : α) :
    Insert E v v.cend x = (PushBack E v x).map (fun v1 => (v1, v.GetSize)) ∧
    (Inv v → ∃ v1, PushBack E v x = some v1 ∧ Insert E v v.cend x = some (v1, v.GetSize) ∧
      v1.GetSize = v.GetSize + 1 ∧ v1.op_index v.GetSize = some x) := by
  have heq : Insert E v v.cend x = (PushBack E v x).map (fun v1 => (v1, v.GetSize)) := by
    unfold Insert PushBack
    cases hg : growIfFull E v with
    | none => rfl
    | some g =>
      have hs := growIfFull_size E v g hg
      simp only [cend, cbegin, Nat.zero_add, hs, GetSize]
      cases hw : g.items_.raw_ptr_.write v.size_ x with
      | none => rfl
      | some blk => rfl
  refine ⟨heq, ?_⟩
  intro hinv
  obtain ⟨v1, hp, -, hs, -, hl⟩ := PushBack_spec E v x hinv
  refine ⟨v1, hp, by rw [heq, hp]; rfl, hs, ?_⟩
  have hlt : v.size_ < v1.size_ := by omega
  show v1.op_index v.size_ = some x
  rw [op_index_of_live v1 v.size_ hlt, hl, List.getElem?_append,
    live_length v hinv.slotsLive, if_neg (Nat.lt_irrefl _), Nat.sub_self]
  rfl

/-- C20 at a concrete input: on `[1, 2]` with capacity 4 both calls give `[1, 2, 5]`
with capacity 4, and `Insert` returns position 2. -/
theorem C20_insert_at_end_witness :
    Inv vec_1_2_slack ∧
      ∃ v1, PushBack (intElem 7) vec_1_2_slack 5 = some v1 ∧
        Insert (intElem 7) vec_1_2_slack 2 5 = some (v1, 2) ∧ v1.GetSize = 3 ∧
        v1.op_index 2 = some 5 := by
  obtain ⟨v1, h1, h2, h3, h4⟩ :=
    (C20_insert_at_end_is_push_back (intElem 7) vec_1_2_slack 5).2 (by decide)
  exact ⟨by decide, v1, h1, h2, h3, h4⟩

/-- C17: on a vector satisfying the data-model invariant each of `PushBack`, `Insert`
(position at most `size`), `PopBack` (non-empty), `Erase` (position below `size`),
`Reserve`, `Resize` and `Clear` runs to completion with a capacity at least the one
before the call; `Resize(n)` keeps the capacity when `n <= capacity` and makes it
`max(n, 2 * capacity)` when `n > capacity`. -/
theorem C17_capacity_never_decreases (E : ElemType α) (v : SimpleVector α) (h : Inv v) :
    (∀ x, ∃ v1, PushBack E v x = some v1 ∧ v.GetCapacity ≤ v1.GetCapacity) ∧
    (∀ i x, i ≤ v.GetSize →
      ∃ v1, Insert E v i x = some (v1, i) ∧ v.GetCapacity ≤ v1.GetCapacity) ∧
    (0 < v.GetSize → ∃ v1, PopBack v = some v1 ∧ v.GetCapacity ≤ v1.GetCapacity) ∧
    (∀ i, i < v.GetSize →
      ∃ v1, Erase E v i = some (v1, i) ∧ v.GetCapacity ≤ v1.GetCapacity) ∧
    (∀ n, ∃ v1, Reserve E v n = some v1 ∧ v.GetCapacity ≤ v1.GetCapacity) ∧
    (∀ n, ∃ v1, Resize E v n = some v1 ∧ v.GetCapacity ≤ v1.GetCapacity ∧
      (n ≤ v.GetCapacity → v1.GetCapacity = v.GetCapacity) ∧
      (v.GetCapacity < n → v1.GetCapacity = max n (2 * v.GetCapacity))) ∧
    v.GetCapacity ≤ (Clear v).GetCapacity := by
  have hgrow : v.capacity_ ≤ (if v.size_ = v.capacity_ then
      (if v.capacity_ ≠ 0 then v.capacity_ * 2 else 1) else v.capacity_) := by
    split
    · split <;> omega
    · exact Nat.le_refl _
  refine ⟨?_, ?_, ?_, ?_, ?_, ?_, Nat.le_refl _⟩
  · intro x
    obtain ⟨v1, hp, -, -, hcap, -⟩ := PushBack_spec E v x h
    refine ⟨v1, hp, ?_⟩
    show v.capacity_ ≤ v1.capacity_
    rw [hcap]
    exact hgrow
  · intro i x hi
    obtain ⟨blk, hins, -⟩ := Insert_spec E v i x h hi
    exact ⟨_, hins, hgrow⟩
  · intro hpos
    have hne : ¬ v.size_ = 0 := by
      have : 0 < v.size_ := hpos
      omega
    exact ⟨{ v with size_ := v.size_ - 1 }, by simp [PopBack, IsEmpty, hne], Nat.le_refl _⟩
  · intro i hi
    obtain ⟨blk, he, -⟩ := Erase_spec E v i h.slotsLive hi
    exact ⟨_, he, Nat.le_refl _⟩
  · intro n
    by_cases hn : v.capacity_ < n
    · obtain ⟨blk, hr, -⟩ := Reserve_grow_spec E v n h.slotsLive h.1 hn
      refine ⟨_, hr, ?_⟩
      show v.capacity_ ≤ n
      omega
    · have : ¬ n > v.capacity_ := hn
      exact ⟨v, by simp only [Reserve, this, if_false], Nat.le_refl _⟩
  · intro n
    by_cases hn : n ≤ v.size_
    · refine ⟨{ v with size_ := n }, by simp only [Resize, hn, if_true], Nat.le_refl _,
        fun _ => rfl, ?_⟩
      intro hlt
      have h1 : v.capacity_ < n := hlt
      have h2 := h.1
      omega
    · obtain ⟨blk, hr, -⟩ := Resize_grow_spec E v n h (by omega)
      refine ⟨_, hr, ?_, ?_, ?_⟩
      · show v.capacity_ ≤ (if n ≤ v.capacity_ then v.capacity_ else max n (v.capacity_ * 2))
        split
        · exact Nat.le_refl _
        · have := Nat.le_max_left n (v.capacity_ * 2)
          omega
      · intro hle
        have hle1 : n ≤ v.capacity_ := hle
        show (if n ≤ v.capacity_ then v.capacity_ else max n (v.capacity_ * 2)) = v.capacity_
        rw [if_pos hle1]
      · intro hlt
        have hlt1 : ¬ n ≤ v.capacity_ := by
          have : v.capacity_ < n := hlt
          omega
        show (if n ≤ v.capacity_ then v.capacity_ else max n (v.capacity_ * 2)) =
          max n (2 * v.capacity_)
        rw [if_neg hlt1, Nat.mul_comm]

/-- C17 at concrete inputs: on `[1, 2]` with capacity 4, `Resize(3)` keeps capacity 4,
`Resize(5)` gives `max(5, 8) = 8` and `Resize(9)` gives `max(9, 8) = 9`. -/
theorem C17_capacity_witness :
    Inv vec_1_2_slack ∧
      (∃ v1, Resize (intElem 7) vec_1_2_slack 3 = some v1 ∧ v1.GetCapacity = 4) ∧
      (∃ v1, Resize (intElem 7) vec_1_2_slack 5 = some v1 ∧ v1.GetCapacity = 8) ∧
      (∃ v1, Resize (intElem 7) vec_1_2_slack 9 = some v1 ∧ v1.GetCapacity = 9) := by
  have h := (C17_capacity_never_decreases (intElem 7) vec_1_2_slack (by decide)).2.2.2.2.2.1
  obtain ⟨a, a1, -, a3, -⟩ := h 3
  obtain ⟨b, b1, -, -, b4⟩ := h 5
  obtain ⟨c, c1, -, -, c4⟩ := h 9
  exact ⟨by decide, ⟨a, a1, a3 (by decide)⟩, ⟨b, b1, b4 (by decide)⟩, ⟨c, c1, c4 (by decide)⟩⟩

/-- The capacity shape that repeated `PushBack` from an empty vector maintains. -/
theorem foldlM_PushBack_doubling (E : ElemType α) (xs : List α) :
    ∀ v : SimpleVector α, Inv v →
      ((v.size_ = 0 ∧ v.capacity_ = 0) ∨ ∃ k, v.capacity_ = 2 ^ k ∧ v.capacity_ < 2 * v.size_) →
      ∃ v1, xs.foldlM (fun w x => PushBack E w x) v = some v1 ∧ Inv v1 ∧
        v1.size_ = v.size_ + xs.length ∧
        ((v1.size_ = 0 ∧ v1.capacity_ = 0) ∨
          ∃ k, v1.capacity_ = 2 ^ k ∧ v1.capacity_ < 2 * v1.size_) := by
  induction xs with
  | nil =>
    intro v hv hshape
    exact ⟨v, rfl, hv, rfl, hshape⟩
  | cons x xs ih =>
    intro v hv hshape
    obtain ⟨v1, h1, hinv1, hs1, hc1, -⟩ := PushBack_spec E v x hv
    have hshape1 : (v1.size_ = 0 ∧ v1.capacity_ = 0) ∨
        ∃ k, v1.capacity_ = 2 ^ k ∧ v1.capacity_ < 2 * v1.size_ := by
      right
      rcases hshape with ⟨hz, hcz⟩ | ⟨k, hk, hlt⟩
      · refine ⟨0, ?_, ?_⟩
        · rw [hc1, hz, hcz]; rfl
        · rw [hc1, hs1, hz, hcz]; decide
      · by_cases hfull : v.size_ = v.capacity_
        · have hpos : v.capacity_ ≠ 0 := by
            have := Nat.two_pow_pos k
            omega
          refine ⟨k + 1, ?_, ?_⟩
          · rw [hc1, if_pos hfull, if_pos hpos, hk, Nat.pow_succ]
          · rw [hc1, if_pos hfull, if_pos hpos, hs1]
            omega
        · refine ⟨k, ?_, ?_⟩
          · rw [hc1, if_neg hfull, hk]
          · rw [hc1, if_neg hfull, hs1]
            omega
    obtain ⟨v2, h2, hinv2, hs2, hshape2⟩ := ih v1 hinv1 hshape1
    refine ⟨v2, ?_, hinv2, ?_, hshape2⟩
    · simp only [List.foldlM, h1]
      exact h2
    · rw [hs2, hs1, List.length_cons]; omega

/-- C18: a default-constructed vector after `N` `PushBack` calls has capacity 0 when
`N = 0`, and for `N >= 1` its capacity is the least power of two that is at least
`N`. -/
theorem C18_push_back_capacity_is_least_power_of_two (E : ElemType α) (xs : List α) :
    ∃ v, pushAll E xs = some v ∧ v.GetSize = xs.length ∧
      (xs.length = 0 → v.GetCapacity = 0) ∧
      (1 ≤ xs.length → IsLeastPowerOfTwoGE xs.length v.GetCapacity) := by
  obtain ⟨v, hv, hinv, hs, hshape⟩ :=
    foldlM_PushBack_doubling E xs empty empty_inv (Or.inl ⟨rfl, rfl⟩)
  have hs1 : v.size_ = xs.length := by simpa [empty] using hs
  refine ⟨v, hv, hs1, ?_, ?_⟩
  · intro hz
    rcases hshape with ⟨-, hc⟩ | ⟨k, -, hlt⟩
    · exact hc
    · omega
  · intro hpos
    rcases hshape with ⟨hz, -⟩ | ⟨k, hk, hlt⟩
    · omega
    · refine ⟨k, hk, ?_, ?_⟩
      · show xs.length ≤ v.capacity_
        have := hinv.1
        omega
      · intro j hj
        show v.capacity_ ≤ 2 ^ j
        by_contra hcon
        have hjk : 2 ^ j < 2 ^ k := by omega
        have hjk2 : j < k := (Nat.pow_lt_pow_iff_right (by decide)).mp hjk
        have hle : 2 ^ (j + 1) ≤ 2 ^ k := Nat.pow_le_pow_right (by decide) hjk2
        rw [Nat.pow_succ] at hle
        omega

/-- C18, the scenario of the specification: three pushes of 1, 2, 3 give size 3,
capacity 4 and elements `[1, 2, 3]`; 4 is the least power of two that is at least 3. -/
theorem C18_three_pushes_witness :
    (∃ v, pushAll (intElem 7) [1, 2, 3] = some v ∧ v.GetSize = 3 ∧ v.GetCapacity = 4 ∧
      live v = [1, 2, 3]) ∧
    (∃ v, pushAll (intElem 7) [1, 2, 3] = some v ∧ v.GetSize = 3 ∧
      IsLeastPowerOfTwoGE 3 v.GetCapacity) ∧
    (pushAll (intElem 7) []).map GetCapacity = some 0 := by
  obtain ⟨v, h1, h2, -, h4⟩ :=
    C18_push_back_capacity_is_least_power_of_two (intElem 7) [1, 2, 3]
  exact ⟨⟨vec_1_2_3_cap4, by decide, by decide, by decide, by decide⟩,
    ⟨v, h1, h2, h4 (by decide)⟩, by decide⟩

theorem foldlM_PushBack_within_capacity (E : ElemType α) (xs : List α) :
    ∀ v : SimpleVector α, Inv v → v.size_ + xs.length ≤ v.capacity_ →
      ∃ v1, xs.foldlM (fun w x => PushBack E w x) v = some v1 ∧ Inv v1 ∧
        v1.capacity_ = v.capacity_ ∧ v1.size_ = v.size_ + xs.length ∧
        live v1 = live v ++ xs := by
  induction xs with
  | nil =>
    intro v hv _
    exact ⟨v, rfl, hv, rfl, rfl, by simp⟩
  | cons x xs ih =>
    intro v hv hroom
    rw [List.length_cons] at hroom
    obtain ⟨v1, h1, hinv1, hs1, hc1, hl1⟩ := PushBack_spec E v x hv
    have hne : ¬ v.size_ = v.capacity_ := by omega
    rw [if_neg hne] at hc1
    obtain ⟨v2, h2, hinv2, hc2, hs2, hl2⟩ := ih v1 hinv1 (by omega)
    refine ⟨v2, ?_, hinv2, by omega, ?_, ?_⟩
    · simp only [List.foldlM, h1]
      exact h2
    · rw [hs2, hs1, List.length_cons]; omega
    · rw [hl2, hl1, List.append_assoc]; rfl

theorem ofReserve_inv (E : ElemType α) (a : ReserveProxyObj) :
    Inv (ofReserve E a) ∧ (ofReserve E a).size_ = 0 ∧
      (ofReserve E a).capacity_ = a.capacity_ := by
  refine ⟨⟨Nat.zero_le _, ?_, ?_⟩, rfl, rfl⟩
  · exact ArrayPtr.ofSize_len E a.capacity_
  · exact ArrayPtr.ofSize_isNone E a.capacity_

end SimpleVector

/-- C19: the vector constructed from `Reserve(n)` has size 0 and capacity `n`, and
pushing `k <= n` values onto it runs to completion with the capacity still `n`, size
`k`, and the pushed values read back in push order by `operator[]` and `At`. -/
theorem C19_reserve_hint_then_push_keeps_capacity {α : Type} (E : ElemType α) (n : Nat)
    (xs : List α) (h : xs.length ≤ n) :
    (SimpleVector.ofReserve E (Reserve n)).GetSize = 0 ∧
    (SimpleVector.ofReserve E (Reserve n)).GetCapacity = n ∧
    ∃ v, reserveThenPush E n xs = some v ∧ v.GetCapacity = n ∧ v.GetSize = xs.length ∧
      ∀ i (hi : i < xs.length),
        v.op_index i = some xs[i] ∧ v.At i = AtResult.value xs[i] := by
  obtain ⟨hinv, hs0, hc0⟩ := SimpleVector.ofReserve_inv E (Reserve n)
  have hc0n : (SimpleVector.ofReserve E (Reserve n)).capacity_ = n := hc0
  obtain ⟨v, hv, -, hc, hs, hl⟩ :=
    SimpleVector.foldlM_PushBack_within_capacity E xs (SimpleVector.ofReserve E (Reserve n))
      hinv (by omega)
  have hlive0 : SimpleVector.live (SimpleVector.ofReserve E (Reserve n)) = [] := by
    apply List.ext_getElem?
    intro j
    rw [SimpleVector.live_getElem?, hs0]
    simp
  have hl2 : SimpleVector.live v = xs := by rw [hl, hlive0]; rfl
  have hs2 : v.size_ = xs.length := by omega
  refine ⟨hs0, hc0n, v, hv, by show v.capacity_ = n; omega, hs2, ?_⟩
  intro i hi
  have hget : (SimpleVector.live v)[i]? = some xs[i] := by
    rw [hl2]; exact List.getElem?_eq_getElem hi
  exact ⟨by rw [SimpleVector.op_index_of_live v i (by omega), hget],
    SimpleVector.At_of_live v i _ (by omega) hget⟩

/-- C19 at a concrete input: `Reserve(3)` then pushes of 1, 2, 3 give size 3 and
capacity 3 with elements `[1, 2, 3]`. -/
theorem C19_reserve_hint_witness :
    [1, 2, 3].length ≤ 3 ∧
      ∃ v, reserveThenPush (intElem 7) 3 [1, 2, 3] = some v ∧ v.GetCapacity = 3 ∧
        v.GetSize = 3 ∧ v.op_index 0 = some 1 ∧ v.At 2 = AtResult.value 3 := by
  obtain ⟨-, -, v, h1, h2, h3, h4⟩ :=
    C19_reserve_hint_then_push_keeps_capacity (intElem 7) 3 [1, 2, 3] (by decide)
  exact ⟨by decide, v, h1, h2, h3, (h4 0 (by decide)).1, (h4 2 (by decide)).2⟩

namespace SimpleVector

variable {α : Type}

/-- Every constructor other than the move constructor establishes the data-model
invariant, and every mutator and both assignments preserve it. -/
theorem Inv_of_constructors_and_mutators (E : ElemType α) :
    Inv (empty : SimpleVector α) ∧
    (∀ n x, ∃ v, ofSizeValue E n x = some v ∧ Inv v) ∧
    (∀ init, ∃ v, ofInitList E init = some v ∧ Inv v) ∧
    (∀ a, Inv (ofReserve E a)) ∧
    (∀ v : SimpleVector α, Inv v →
      (∃ c, copy E v = some c ∧ Inv c) ∧
      (∀ x, ∃ v1, PushBack E v x = some v1 ∧ Inv v1) ∧
      (∀ i x, i ≤ v.size_ → ∃ v1, Insert E v i x = some (v1, i) ∧ Inv v1) ∧
      (0 < v.size_ → ∃ v1, PopBack v = some v1 ∧ Inv v1) ∧
      (∀ i, i < v.size_ → ∃ v1, Erase E v i = some (v1, i) ∧ Inv v1) ∧
      (∀ n, ∃ v1, Reserve E v n = some v1 ∧ Inv v1) ∧
      (∀ n, ∃ v1, Resize E v n = some v1 ∧ Inv v1) ∧
      Inv (Clear v) ∧
      (∀ w : SimpleVector α, Inv w →
        Inv (swap v w).1 ∧ Inv (swap v w).2 ∧
        (∃ t, copyAssign E w v = some t ∧ Inv t) ∧
        Inv (moveAssign w v).1 ∧ Inv (moveAssign w v).2)) := by
  refine ⟨empty_inv, ?_, ?_, fun a => (ofReserve_inv E a).1, ?_⟩
  · intro n x
    obtain ⟨q, hfill, hql, hqn, -⟩ :=
      std_fill_loop_spec x n (ArrayPtr.ofSize E n).raw_ptr_ 0
        (by rw [ArrayPtr.ofSize_len]; omega)
    refine ⟨SimpleVector.mk (ArrayPtr.mk q) n n, ?_, Nat.le_refl _, ?_, ?_⟩
    · simp only [ofSizeValue, std_fill, cbegin, cend, ArrayPtr.Get, Nat.zero_le, if_true,
        Nat.sub_zero, hfill]
    · show q.len = n
      rw [hql, ArrayPtr.ofSize_len]
    · show q.isNone = true ↔ n = 0
      rw [hqn]
      exact ArrayPtr.ofSize_isNone E n
  · intro init
    obtain ⟨blk, hmk, hlen, hnone, -⟩ :=
      MakeNewCopyVector_spec E { size_ := init.length, capacity_ := init.length }
        (some init) init.length (Nat.le_refl _)
    exact ⟨SimpleVector.mk (ArrayPtr.mk blk) init.length init.length,
      by simp only [ofInitList, hmk], Nat.le_refl _, hlen, hnone⟩
  · intro v hv
    refine ⟨?_, ?_, ?_, ?_, ?_, ?_, ?_, ?_, ?_⟩
    · obtain ⟨blk, hc, hlen, hnone, -⟩ := copy_spec E v hv.slotsLive
      exact ⟨_, hc, Nat.le_refl _, hlen, hnone⟩
    · intro x
      obtain ⟨v1, hp, hinv, -⟩ := PushBack_spec E v x hv
      exact ⟨v1, hp, hinv⟩
    · intro i x hi
      obtain ⟨blk, hins, hlen, hnone, hroom, -⟩ := Insert_spec E v i x hv hi
      refine ⟨_, hins, ?_, hlen, ?_⟩
      · show v.size_ + 1 ≤ _
        rw [← hlen]; exact hroom
      · show blk.isNone = true ↔ _ = 0
        rw [hnone]
        constructor
        · intro hf; cases hf
        · intro hz
          have hz2 : blk.len = 0 := by rw [hlen]; exact hz
          omega
    · intro hpos
      have hne : ¬ v.size_ = 0 := by omega
      refine ⟨{ v with size_ := v.size_ - 1 }, by simp [PopBack, IsEmpty, hne], ?_, hv.2.1,
        hv.2.2⟩
      show v.size_ - 1 ≤ v.capacity_
      have := hv.1
      omega
    · intro i hi
      obtain ⟨blk, he, hlen, hnone, -⟩ := Erase_spec E v i hv.slotsLive hi
      refine ⟨_, he, ?_, ?_, ?_⟩
      · show v.size_ - 1 ≤ v.capacity_
        have := hv.1
        omega
      · show blk.len = v.capacity_
        rw [hlen]; exact hv.2.1
      · show blk.isNone = true ↔ v.capacity_ = 0
        rw [hnone]; exact hv.2.2
    · intro n
      by_cases hn : v.capacity_ < n
      · obtain ⟨blk, hr, hlen, hnone, -⟩ := Reserve_grow_spec E v n hv.slotsLive hv.1 hn
        refine ⟨_, hr, ?_, hlen, ?_⟩
        · show v.size_ ≤ n
          have := hv.1
          omega
        · show blk.isNone = true ↔ n = 0
          rw [hnone]
          constructor
          · intro hf; cases hf
          · intro hz; omega
      · have : ¬ n > v.capacity_ := hn
        exact ⟨v, by simp only [Reserve, this, if_false], hv⟩
    · intro n
      by_cases hn : n ≤ v.size_
      · refine ⟨{ v with size_ := n }, by simp only [Resize, hn, if_true], ?_, hv.2.1, hv.2.2⟩
        show n ≤ v.capacity_
        have := hv.1
        omega
      · obtain ⟨blk, hr, hlen, hnone, -⟩ := Resize_grow_spec E v n hv (by omega)
        refine ⟨_, hr, ?_, hlen, ?_⟩
        · show n ≤ (if n ≤ v.capacity_ then v.capacity_ else max n (v.capacity_ * 2))
          split
          · assumption
          · exact Nat.le_max_left _ _
        · show blk.isNone = true ↔
            (if n ≤ v.capacity_ then v.capacity_ else max n (v.capacity_ * 2)) = 0
          rw [hnone, ← hlen]
          constructor
          · intro hf; cases hf
          · intro hz
            have hpos : 0 < blk.len := by
              rw [hlen]
              split
              · omega
              · have := Nat.le_max_left n (v.capacity_ * 2)
                omega
            omega
    · exact ⟨Nat.zero_le _, hv.2.1, hv.2.2⟩
    · intro w hw
      refine ⟨hw, hv, ?_, hv, ?_⟩
      · obtain ⟨blk, hc, hlen, hnone, -⟩ := copy_spec E v hv.slotsLive
        exact ⟨SimpleVector.mk (ArrayPtr.mk blk) v.size_ v.size_,
          by simp only [copyAssign, hc, swap, ArrayPtr.swap], Nat.le_refl _, hlen, hnone⟩
      · exact ⟨Nat.le_refl _, rfl, by simp [moveAssign, ArrayPtr.swap, ArrayPtr.Release]⟩

end SimpleVector
